import Mathlib

/-!
Verification development for the TABLITSA table-to-PDF renderer.

This file gives a shallow embedding, in Lean 4, of the two core components
of the repository and proves the specification claims about them:

* `src/services/formatService.ts` — the Russian-typography normalizer
  `formatRussianText`, a pipeline of ordered regex-replacement passes.
  Each JavaScript regex pass is embedded as an executable left-to-right
  scanner on `List Char`, reproducing the JS semantics (leftmost match,
  replacement text not rescanned, greedy quantifiers, the JS `\s`, `\b`,
  `\w` character classes, and the case-insensitivity canonicalization of
  the `i` flag for ASCII and Cyrillic letters).

* `src/services/pdfService.ts` — the A3 layout engine: `calculateRowHeight`,
  `drawRow`, `drawHeader` and the row-placement loop of `exportToPDF`,
  embedded as a pure state machine producing a trace of pages and events.
  The external jsPDF text-measurement collaborator `doc.splitTextToSize`
  is an explicit parameter (`split`), as the spec treats TextMetrics as an
  external collaborator; lengths in mm are modelled by exact rationals.

* `fetchWithFallback` — the ordered font-source resolution with its
  integrity checks (from the `src/unnamed/part_000` revision of the PDF
  service, whose lines 40-55 are cited by the claim), with the network
  transport modelled by the list of per-URL responses.
-/

set_option maxRecDepth 20000
set_option maxHeartbeats 1000000

namespace Tablitsa

/-! ### Character classes of the JavaScript regex dialect -/

/-- Non-breaking space U+00A0 (` ` in the source). -/
def NBSP : Char := ' '

/-- Word joiner U+2060 (`⁠` in the source). -/
def WJ : Char := '⁠'

/-- Non-breaking hyphen U+2011 (`‑` in the source). -/
def NBHYPH : Char := '‑'

/-- JavaScript `\s` (WhiteSpace plus LineTerminator). -/
def jsSpace (c : Char) : Bool :=
  c == ' ' || c == '\t' || c == '\n' || c == '\r' || c.val == 11 || c.val == 12 ||
  c == NBSP || c.val == 0x1680 || (0x2000 ≤ c.val && c.val ≤ 0x200A) ||
  c.val == 0x2028 || c.val == 0x2029 || c.val == 0x202F || c.val == 0x205F ||
  c.val == 0x3000 || c.val == 0xFEFF

/-- Decimal digit, JavaScript `\d`. -/
def jsDigit (c : Char) : Bool := '0' ≤ c && c ≤ '9'

/-- JavaScript `\w` = `[A-Za-z0-9_]` (ASCII only; Cyrillic letters are not
word characters in JS regexes without the `u` flag). -/
def jsWordChar (c : Char) : Bool :=
  ('a' ≤ c && c ≤ 'z') || ('A' ≤ c && c ≤ 'Z') || jsDigit c || c == '_'

/-- JavaScript line terminators (not matched by `.`). -/
def lineTerm (c : Char) : Bool :=
  c == '\n' || c == '\r' || c.val == 0x2028 || c.val == 0x2029

/-- Per-character canonicalization performed by the regex `i` flag,
for the alphabets occurring in the source patterns (ASCII and Cyrillic). -/
def canonChar (c : Char) : Char :=
  if 'A' ≤ c ∧ c ≤ 'Z' then Char.ofNat (c.toNat + 32)
  else if 'А' ≤ c ∧ c ≤ 'Я' then Char.ofNat (c.toNat + 32)
  else if c = 'Ё' then 'ё' else c

/-- JavaScript `String.prototype.trim`. -/
def jsTrim (cs : List Char) : List Char :=
  ((cs.dropWhile (jsSpace ·)).reverse.dropWhile (jsSpace ·)).reverse

/-- Does the head of the list satisfy the predicate (false on empty)? -/
def headIs (p : Char → Bool) : List Char → Bool
  | c :: _ => p c
  | [] => false

/-- Does the head of the list satisfy the predicate (true on empty)? -/
def headIsOrNil (p : Char → Bool) : List Char → Bool
  | c :: _ => p c
  | [] => true

/-- Case-insensitive literal match of a pattern against a prefix of the
input; returns the consumed original characters and the rest. -/
def matchCI : List Char → List Char → Option (List Char × List Char)
  | [], cs => some ([], cs)
  | _ :: _, [] => none
  | p :: ps, c :: cs =>
    if canonChar c = canonChar p then
      match matchCI ps cs with
      | some (orig, rest) => some (c :: orig, rest)
      | none => none
    else none

/-! ### Pass 0 of `formatRussianText`: units `м2`/`м3`
`f.replace(/м2(\b|$)/g, 'м²')` and the same for `м3`. -/

def m2Go : Nat → List Char → List Char
  | 0, cs => cs
  | _ + 1, [] => []
  | f + 1, c :: cs =>
    if c = 'м' then
      match cs with
      | '2' :: rest =>
        if headIsOrNil (fun r => !jsWordChar r) rest = true then
          'м' :: '²' :: m2Go f rest
        else c :: m2Go f cs
      | _ => c :: m2Go f cs
    else c :: m2Go f cs

def m3Go : Nat → List Char → List Char
  | 0, cs => cs
  | _ + 1, [] => []
  | f + 1, c :: cs =>
    if c = 'м' then
      match cs with
      | '3' :: rest =>
        if headIsOrNil (fun r => !jsWordChar r) rest = true then
          'м' :: '³' :: m3Go f rest
        else c :: m3Go f cs
      | _ => c :: m3Go f cs
    else c :: m3Go f cs

/-! ### Pass 1: quotes
`f.replace(/(^|[\s\( ])"/g, '$1«')` then `f.replace(/"/g, '»')`.
The first pass is position-local: a `"` opens iff it is at the start or
its preceding input character is in `[\s( ]` (the re-emitted `$1`
keeps the context character in place, and `"` itself is never a context
character, so per-position processing agrees with the g-scan). -/

def quoteOpenGo : Option Char → List Char → List Char
  | _, [] => []
  | prev, c :: cs =>
    (if c = '"' ∧ (match prev with | none => true | some p => jsSpace p || (p == '(')) = true then
      '«' else c) :: quoteOpenGo (some c) cs

def quoteCloseGo (cs : List Char) : List Char :=
  cs.map (fun c => if c = '"' then '»' else c)

/-! ### Pass 2: prepositions
`(^|[\s\( ])(…preps…)(\s+)` with flags `gi`, replaced by `$1$2 `,
applied three times. -/

def preps : List (List Char) :=
  (["в", "во", "без", "до", "из", "к", "ко", "на", "над", "о", "об", "обо",
    "от", "ото", "по", "под", "подо", "при", "про", "с", "со", "у", "через",
    "для", "за", "и", "а", "но", "да", "из-за", "из-под", "или", "как", "так",
    "над", "под", "pred", "через"]).map String.data

/-- Try the alternation `(…preps…)(\s+)` at the current position: the first
alternative (in source order) that matches case-insensitively and is
followed by at least one `\s` succeeds; the whole whitespace run is
consumed (greedy `\s+`). -/
def tryPrepAux : List (List Char) → List Char → Option (List Char × List Char)
  | [], _ => none
  | p :: ps, cs =>
    match matchCI p cs with
    | some (orig, rest) =>
      if headIs jsSpace rest = true then
        some (orig, rest.dropWhile (jsSpace ·))
      else tryPrepAux ps cs
    | none => tryPrepAux ps cs

def tryPrep (cs : List Char) : Option (List Char × List Char) := tryPrepAux preps cs

def prepGo : Nat → Bool → List Char → List Char
  | 0, _, cs => cs
  | _ + 1, _, [] => []
  | f + 1, atStart, c :: cs =>
    if atStart then
      match tryPrep (c :: cs) with
      | some (orig, rest) => orig ++ NBSP :: prepGo f false rest
      | none =>
        if jsSpace c = true ∨ c = '(' then
          match tryPrep cs with
          | some (orig, rest) => c :: (orig ++ NBSP :: prepGo f false rest)
          | none => c :: prepGo f false cs
        else c :: prepGo f false cs
    else
      if jsSpace c = true ∨ c = '(' then
        match tryPrep cs with
        | some (orig, rest) => c :: (orig ++ NBSP :: prepGo f false rest)
        | none => c :: prepGo f false cs
      else c :: prepGo f false cs

def prepPass (cs : List Char) : List Char := prepGo (cs.length + 1) true cs

/-! ### Pass 3: leading address abbreviations
`(^|[\s\( ])(…abbrs…)\.(\s*)` with flags `gi`, replaced by `$1$2. `. -/

def leadAbbrs : List (List Char) :=
  (["г", "ул", "д", "корп", "стр", "кв", "пр-т", "пр", "наб", "б-р",
    "ш", "оф", "тел", "пгт", "с", "пос", "обл", "р-н", "р-ne"]).map String.data

def tryLeadAux : List (List Char) → List Char → Option (List Char × List Char)
  | [], _ => none
  | p :: ps, cs =>
    match matchCI p cs with
    | some (orig, rest) =>
      match rest with
      | '.' :: rest2 => some (orig, rest2.dropWhile (jsSpace ·))
      | _ => tryLeadAux ps cs
    | none => tryLeadAux ps cs

def tryLead (cs : List Char) : Option (List Char × List Char) := tryLeadAux leadAbbrs cs

def leadGo : Nat → Bool → List Char → List Char
  | 0, _, cs => cs
  | _ + 1, _, [] => []
  | f + 1, atStart, c :: cs =>
    if atStart then
      match tryLead (c :: cs) with
      | some (orig, rest) => orig ++ '.' :: NBSP :: leadGo f false rest
      | none =>
        if jsSpace c = true ∨ c = '(' then
          match tryLead cs with
          | some (orig, rest) => c :: (orig ++ '.' :: NBSP :: leadGo f false rest)
          | none => c :: leadGo f false cs
        else c :: leadGo f false cs
    else
      if jsSpace c = true ∨ c = '(' then
        match tryLead cs with
        | some (orig, rest) => c :: (orig ++ '.' :: NBSP :: leadGo f false rest)
        | none => c :: leadGo f false cs
      else c :: leadGo f false cs

def leadPass (cs : List Char) : List Char := leadGo (cs.length + 1) true cs

/-! ### Pass 4: address comma `,(\s+)(?=\d)` → `, ` -/

def commaGo : Nat → List Char → List Char
  | 0, cs => cs
  | _ + 1, [] => []
  | f + 1, c :: cs =>
    if c = ',' ∧ headIs jsSpace cs = true ∧ headIs jsDigit (cs.dropWhile (jsSpace ·)) = true then
      c :: NBSP :: commaGo f (cs.dropWhile (jsSpace ·))
    else c :: commaGo f cs

/-! ### Pass 5: trailing unit abbreviations
`(\d)(\s*)(…units…)\.` with flags `gi`, replaced by `$1 $3.` -/

def trailAbbrs : List (List Char) :=
  (["г", "л", "м", "км", "шт", "руб", "коп", "чел", "тыс", "млн", "млрд"]).map String.data

def tryTrailAux : List (List Char) → List Char → Option (List Char × List Char)
  | [], _ => none
  | p :: ps, cs =>
    match matchCI p cs with
    | some (orig, rest) =>
      match rest with
      | '.' :: rest2 => some (orig, rest2)
      | _ => tryTrailAux ps cs
    | none => tryTrailAux ps cs

def trailGo : Nat → List Char → List Char
  | 0, cs => cs
  | _ + 1, [] => []
  | f + 1, c :: cs =>
    if jsDigit c = true then
      match tryTrailAux trailAbbrs (cs.dropWhile (jsSpace ·)) with
      | some (orig, rest2) => c :: NBSP :: (orig ++ '.' :: trailGo f rest2)
      | none => c :: trailGo f cs
    else c :: trailGo f cs

/-! ### Pass 6: `№(\s*)(\d)` → `№ $2` -/

def numSignGo : Nat → List Char → List Char
  | 0, cs => cs
  | _ + 1, [] => []
  | f + 1, c :: cs =>
    if c = '№' then
      match cs.dropWhile (jsSpace ·) with
      | d :: rest2 =>
        if jsDigit d = true then c :: NBSP :: d :: numSignGo f rest2
        else c :: numSignGo f cs
      | [] => c :: numSignGo f cs
    else c :: numSignGo f cs

/-! ### Pass 7a: bind a short parenthetical to the previous word
`(\S)\s+\((?=.{1,12}\))` → `$1 (`. -/

/-- The lookahead `.{1,12}\)`: some `k ∈ [1,12]` dot-matching characters
followed by `)`. -/
def lookClose : Nat → List Char → Bool
  | 0, _ => false
  | _ + 1, [] => false
  | n + 1, c :: cs =>
    if lineTerm c then false
    else (match cs with | ')' :: _ => true | _ => false) || lookClose n cs

def parenBindGo : Nat → List Char → List Char
  | 0, cs => cs
  | _ + 1, [] => []
  | f + 1, c :: cs =>
    if jsSpace c = false ∧ headIs jsSpace cs = true then
      match cs.dropWhile (jsSpace ·) with
      | '(' :: after =>
        if lookClose 12 after = true then c :: NBSP :: '(' :: parenBindGo f after
        else c :: parenBindGo f cs
      | _ => c :: parenBindGo f cs
    else c :: parenBindGo f cs

/-! ### Pass 7b: protect parenthetical content
`\(([^)]+)\)` replaced by `(⁠` + content with `-`→`‑` + `⁠)`. -/

def parenWrapGo : Nat → List Char → List Char
  | 0, cs => cs
  | _ + 1, [] => []
  | f + 1, c :: cs =>
    if c = '(' ∧ (cs.takeWhile (· ≠ ')')) ≠ [] ∧ headIs (· == ')') (cs.dropWhile (· ≠ ')')) = true then
      '(' :: WJ ::
        ((cs.takeWhile (· ≠ ')')).map (fun d => if d = '-' then NBHYPH else d) ++
          WJ :: ')' :: parenWrapGo f ((cs.dropWhile (· ≠ ')')).drop 1))
    else c :: parenWrapGo f cs

/-! ### Pass 7c and 7d: `\(\s+` → `(` and `\s+\)` → `)` -/

def parenOpenWsGo : Nat → List Char → List Char
  | 0, cs => cs
  | _ + 1, [] => []
  | f + 1, c :: cs =>
    if c = '(' ∧ headIs jsSpace cs = true then
      '(' :: parenOpenWsGo f (cs.dropWhile (jsSpace ·))
    else c :: parenOpenWsGo f cs

def wsCloseGo : Nat → List Char → List Char
  | 0, cs => cs
  | _ + 1, [] => []
  | f + 1, c :: cs =>
    if jsSpace c = true ∧ headIs (· == ')') (cs.dropWhile (jsSpace ·)) = true then
      ')' :: wsCloseGo f ((cs.dropWhile (jsSpace ·)).drop 1)
    else c :: wsCloseGo f cs

/-! ### Pass 8a: numeric range `(\d{2,4})-(\d{2,4})` → `$1–$2` -/

def rangeDashGo : Nat → List Char → List Char
  | 0, cs => cs
  | _ + 1, [] => []
  | f + 1, c :: cs =>
    if jsDigit c = true ∧ 2 ≤ (c :: cs.takeWhile (jsDigit ·)).length ∧
        (c :: cs.takeWhile (jsDigit ·)).length ≤ 4 then
      match cs.dropWhile (jsDigit ·) with
      | '-' :: tail =>
        if 2 ≤ (tail.takeWhile (jsDigit ·)).length then
          (c :: cs.takeWhile (jsDigit ·)) ++ '–' ::
            ((tail.takeWhile (jsDigit ·)).take 4 ++
              rangeDashGo f (tail.drop (min 4 (tail.takeWhile (jsDigit ·)).length)))
        else c :: rangeDashGo f cs
      | _ => c :: rangeDashGo f cs
    else c :: rangeDashGo f cs

/-! ### Pass 8b: sentence dash `(\s+)-(\s+)` → ` — ` -/

def longDashGo : Nat → List Char → List Char
  | 0, cs => cs
  | _ + 1, [] => []
  | f + 1, c :: cs =>
    if jsSpace c = true then
      match cs.dropWhile (jsSpace ·) with
      | '-' :: tail =>
        if headIs jsSpace tail = true then
          NBSP :: '—' :: ' ' :: longDashGo f (tail.dropWhile (jsSpace ·))
        else c :: longDashGo f cs
      | _ => c :: longDashGo f cs
    else c :: longDashGo f cs

/-! ### Pass 9: thousands separators `\b\d{4,}\b` with the year exception -/

/-- `isYear` from the source: exactly 4 digits starting with `19` or `20`. -/
def isYearRun (ds : List Char) : Bool :=
  ds.length == 4 &&
    (match ds with
     | a :: b :: _ => (a == '1' && b == '9') || (a == '2' && b == '0')
     | _ => false)

/-- The grouping loop of the source: emit ` ` before index `i` when
`i > 0 && (len - i) % 3 === 0`. -/
def group3Aux : Nat → Nat → List Char → List Char
  | _, _, [] => []
  | i, n, c :: cs =>
    if 0 < i ∧ (n - i) % 3 = 0 then NBSP :: c :: group3Aux (i + 1) n cs
    else c :: group3Aux (i + 1) n cs

def group3 (ds : List Char) : List Char := group3Aux 0 ds.length ds

/-- The trailing `\b` of `\b\d{4,}\b`: holds at the end of input or before
a non-word character. -/
def nextBoundOk : List Char → Bool
  | [] => true
  | d :: _ => !jsWordChar d

/-- Scanner for `\b\d{4,}\b`.  `prevOk` records whether a word boundary
holds before the current position.  A maximal digit run is matched (and
grouped, unless it is a year) exactly when the boundary holds on both
sides and it has at least 4 digits; a year-shaped run is matched but
replaced by itself, which coincides with walking over it. -/
def thGo : Nat → Bool → List Char → List Char
  | 0, _, cs => cs
  | _ + 1, _, [] => []
  | f + 1, prevOk, c :: cs =>
    if prevOk = true ∧ jsDigit c = true ∧ 4 ≤ (c :: cs.takeWhile (jsDigit ·)).length ∧
        nextBoundOk (cs.dropWhile (jsDigit ·)) = true ∧
        isYearRun (c :: cs.takeWhile (jsDigit ·)) = false then
      group3 (c :: cs.takeWhile (jsDigit ·)) ++ thGo f false (cs.dropWhile (jsDigit ·))
    else c :: thGo f (!jsWordChar c) cs

def applyThousands (cs : List Char) : List Char := thGo (cs.length + 1) true cs

/-! ### The full pipeline -/

/-- The ordered rule pipeline of `formatRussianText` (everything after the
whole-cell-hyphen early return). -/
def runPasses (cs : List Char) : List Char :=
  let f0 := m2Go (cs.length + 1) cs
  let f1 := m3Go (f0.length + 1) f0
  let f2 := quoteOpenGo none f1
  let f3 := quoteCloseGo f2
  let f4 := prepPass (prepPass (prepPass f3))
  let f5 := leadPass f4
  let f6 := commaGo (f5.length + 1) f5
  let f7 := trailGo (f6.length + 1) f6
  let f8 := numSignGo (f7.length + 1) f7
  let f9 := parenBindGo (f8.length + 1) f8
  let f10 := parenWrapGo (f9.length + 1) f9
  let f11 := parenOpenWsGo (f10.length + 1) f10
  let f12 := wsCloseGo (f11.length + 1) f11
  let f13 := rangeDashGo (f12.length + 1) f12
  let f14 := longDashGo (f13.length + 1) f13
  applyThousands f14

/-- Embedding of `formatRussianText` (src/services/formatService.ts).
An empty string passes through (the `!text` guard); a string whose trim is
exactly `-` becomes an en-dash; otherwise the rule pipeline runs. -/
def formatRussianText (s : String) : String :=
  if s.data = [] then s
  else if jsTrim s.data = ['-'] then "–"
  else ⟨runPasses s.data⟩

/-! ### Data model (src/types.ts) -/

structure TableCellStyle where
  fontSize : Option ℚ := none
  fontWeight : Option ℤ := none
  circleColor : Option String := none
  circleSize : Option ℚ := none
deriving DecidableEq

structure TableCell where
  value : String
  style : Option TableCellStyle := none
deriving DecidableEq

/-- A table row; `isTotal` models `!!row.isTotal` (the optional flag
coerced to a boolean, as the call sites do). -/
structure TableRow where
  cells : List TableCell
  isTotal : Bool := false
deriving DecidableEq

/-! ### Constants (src/constants.ts) and UI_UNITS (src/services/pdfService.ts) -/

def A3_WIDTH_MM : ℚ := 420
def A3_HEIGHT_MM : ℚ := 297
def MARGIN_MM : ℚ := 3

def UI_headerFontSize : ℚ := 2.6
def UI_standardFontSize : ℚ := 3.1
def UI_numericFontSize : ℚ := 3.8
def UI_cellPadding : ℚ := 0.8
def UI_lineHeight : ℚ := 1.0

/-- JavaScript `x || d` on numbers: `none` and `0` are falsy. -/
def jsOrQ (x : Option ℚ) (d : ℚ) : ℚ :=
  match x with
  | some v => if v = 0 then d else v
  | none => d

/-- `cell.style?.fontSize || (isNumeric ? numericFontSize : standardFontSize)`
where `isNumeric` is `i >= 7`. -/
def effFontSize (cell : TableCell) (i : Nat) : ℚ :=
  jsOrQ (cell.style.bind (·.fontSize))
    (if 7 ≤ i then UI_numericFontSize else UI_standardFontSize)

/-- `cell.style?.circleSize || (fs * 1.6)`. -/
def effCircleSize (cell : TableCell) (fs : ℚ) : ℚ :=
  jsOrQ (cell.style.bind (·.circleSize)) (fs * 1.6)

/-- The text actually rendered for a cell: the `AUTO` placeholder in the
leading column is replaced by `bodyIdx + 1`. -/
def cellText (i : Nat) (cell : TableCell) (bodyIdx : ℤ) : String :=
  if i = 0 ∧ cell.value = "AUTO" then toString (bodyIdx + 1) else cell.value

/-! ### `calculateRowHeight` (src/services/pdfService.ts, lines 173-195)

`split` is the external `doc.splitTextToSize` collaborator, abstracted to
the number of wrapped lines it returns for a string and a width. -/

def cellHeightStep (split : String → ℚ → ℕ) (colW : List ℚ) (isTotal : Bool)
    (bIdx : ℤ) (maxH : ℚ) (i : ℕ) (cell : TableCell) : ℚ :=
  let fs := effFontSize cell i
  let maxH := if i = 0 ∧ isTotal = false then
      max maxH (effCircleSize cell fs + UI_cellPadding * 2.5)
    else maxH
  let lines := split (formatRussianText (cellText i cell bIdx))
      (colW.getD i 0 - UI_cellPadding * 2)
  max maxH ((lines : ℚ) * (fs * UI_lineHeight) + UI_cellPadding * 3.0)

def calculateRowHeight (split : String → ℚ → ℕ) (colW : List ℚ)
    (row : TableRow) (bIdx : ℤ) : ℚ :=
  row.cells.enum.foldl
    (fun m p => cellHeightStep split colW row.isTotal bIdx m p.1 p.2) 6.0

/-! ### The drawing trace

The jsPDF drawing surface is abstracted to a trace of events: a header
emission, or the placement of one whole row (its top `y`, its height and
the per-cell content — a numbered circle for the leading cell of non-total
rows, plain text otherwise).  Fill/stroke colours and fonts carry no
layout information and are not recorded. -/

inductive CellDraw
  | circled (txt : String)
  | plain (txt : String)
deriving DecidableEq

def CellDraw.isCircled : CellDraw → Bool
  | circled _ => true
  | plain _ => false

inductive Ev
  | header
  | row (y h : ℚ) (cells : List CellDraw)
deriving DecidableEq

def Ev.isHeader : Ev → Bool
  | header => true
  | _ => false

def Ev.isRow : Ev → Bool
  | row _ _ _ => true
  | _ => false

/-- The per-cell drawing of `drawRow`: cell 0 of a non-total row gets a
filled circle with the (formatted) cell text centered in it; all other
cells render the formatted text. -/
def drawCells (row : TableRow) (isTotal : Bool) (bodyIdx : ℤ) : List CellDraw :=
  row.cells.enum.map (fun p =>
    if p.1 = 0 ∧ isTotal = false then
      CellDraw.circled (formatRussianText (cellText p.1 p.2 bodyIdx))
    else CellDraw.plain (formatRussianText (cellText p.1 p.2 bodyIdx)))

structure LayoutState where
  currentY : ℚ
  closedPages : List (List Ev)
  page : List Ev
deriving DecidableEq

/-- `drawHeader`: emits the two-band header (8.0 mm + 6.0 mm) at the
current position and advances `currentY` by its total height. -/
def drawHeader (s : LayoutState) : LayoutState :=
  { s with page := s.page ++ [Ev.header], currentY := s.currentY + (8.0 + 6.0) }

/-- `drawRow` (src/services/pdfService.ts, lines 197-242): measure the row;
if it does not fit in `A3_HEIGHT_MM - margin - 5`, finalize the page,
start a new one at the top margin and re-draw the header; then place the
whole row at the current position. -/
def drawRow (split : String → ℚ → ℕ) (colW : List ℚ) (row : TableRow)
    (isTotal : Bool) (bodyIdx : ℤ) (s : LayoutState) : LayoutState :=
  let rowHeight := calculateRowHeight split colW row bodyIdx
  let s1 := if s.currentY + rowHeight > A3_HEIGHT_MM - MARGIN_MM - 5 then
      drawHeader { currentY := MARGIN_MM, closedPages := s.closedPages ++ [s.page],
                   page := [] }
    else s
  { currentY := s1.currentY + rowHeight,
    closedPages := s1.closedPages,
    page := s1.page ++ [Ev.row s1.currentY rowHeight (drawCells row isTotal bodyIdx)] }

/-- The row loop of `exportToPDF`:
`let bIdx = 0; rows.forEach(row => drawRow(row, !!row.isTotal, row.isTotal ? -1 : bIdx++))`. -/
def placeRows (split : String → ℚ → ℕ) (colW : List ℚ) :
    List TableRow → ℕ → LayoutState → LayoutState
  | [], _, s => s
  | r :: rs, b, s =>
    if r.isTotal then placeRows split colW rs b (drawRow split colW r true (-1) s)
    else placeRows split colW rs (b + 1) (drawRow split colW r false (b : ℤ) s)

/-- The layout portion of `exportToPDF` (font resolution and PDF byte
serialization abstracted): draw the header on the first page, then place
all rows. -/
def exportToPDF (split : String → ℚ → ℕ) (colW : List ℚ)
    (rows : List TableRow) : LayoutState :=
  placeRows split colW rows 0 (drawHeader ⟨MARGIN_MM, [], []⟩)

/-- The pages the export produces: the finalized pages plus the page still
being built. -/
def pagesOf (s : LayoutState) : List (List Ev) := s.closedPages ++ [s.page]

/-- The per-row cell traces, in document order. -/
def rowCellsOf (s : LayoutState) : List (List CellDraw) :=
  (pagesOf s).flatten.filterMap (fun e =>
    match e with
    | Ev.row _ _ cs => some cs
    | _ => none)

/-! ### `fetchWithFallback` (src/unnamed/part_000, lines 40-55)

The transport is modelled by the per-URL outcome: `none` when the fetch
promise rejects, otherwise the response with its `ok` status and its
buffer (the base64 transcription step, an external `FileReader` API, is
the identity on the transported bytes here). -/

structure FetchResponse where
  ok : Bool
  buffer : List ℕ
deriving DecidableEq

/-- One attempt of the `try` body: a non-`ok` status throws, a buffer of
fewer than 5000 bytes throws (`Font file suspiciously small`), otherwise
the bytes are returned. -/
def fetchAttempt (r : Option FetchResponse) : Option (List ℕ) :=
  match r with
  | none => none
  | some resp =>
    if resp.ok = false then none
    else if resp.buffer.length < 5000 then none
    else some resp.buffer

def fetchWithFallback : List (Option FetchResponse) → Except String (List ℕ)
  | [] => Except.error "Failed to load font from all sources."
  | r :: rs =>
    match fetchAttempt r with
    | some buf => Except.ok buf
    | none => fetchWithFallback rs

/-! ### Maximal-digit-run decompositions

To state and prove what the thousands-grouping pass does, a string is
viewed as an alternating list of maximal digit runs and single non-digit
separator characters. -/

inductive Chunk
  | sep (c : Char)
  | run (ds : List Char)
deriving DecidableEq

def Chunk.render : Chunk → List Char
  | sep c => [c]
  | run ds => ds

def renderChunks (ks : List Chunk) : List Char := (ks.map Chunk.render).flatten

def Chunk.isRun : Chunk → Bool
  | run _ => true
  | sep _ => false

/-- Chunk validity: runs are nonempty and all digits, separators are
non-digits. -/
def chunkOkb : Chunk → Bool
  | Chunk.run ds => !ds.isEmpty && ds.all (jsDigit ·)
  | Chunk.sep c => !jsDigit c

/-- No two runs are adjacent (each run is maximal). -/
def noRunRun : List Chunk → Bool
  | [] => true
  | [_] => true
  | a :: b :: t => !(a.isRun && b.isRun) && noRunRun (b :: t)

def chunksWF (ks : List Chunk) : Prop := ks.all chunkOkb = true ∧ noRunRun ks = true

/-- The trailing word boundary seen by a run, in chunk terms. -/
def chunkNextOk : List Chunk → Bool
  | [] => true
  | Chunk.sep c :: _ => !jsWordChar c
  | Chunk.run _ :: _ => false

/-- What the thousands pass produces, chunk by chunk: a maximal digit run
is grouped exactly when a word boundary holds on both sides, it has at
least 4 digits, and it is not year-shaped; everything else is copied. -/
def chunkOut : Bool → List Chunk → List Char
  | _, [] => []
  | _, Chunk.sep c :: ks => c :: chunkOut (!jsWordChar c) ks
  | pOk, Chunk.run ds :: ks =>
    (if pOk = true ∧ 4 ≤ ds.length ∧ chunkNextOk ks = true ∧ isYearRun ds = false then
      group3 ds
    else ds) ++ chunkOut false ks

/-- Decompose a string into its maximal-run chunk list. -/
def toChunksGo : Nat → List Char → List Chunk
  | 0, _ => []
  | _ + 1, [] => []
  | f + 1, c :: cs =>
    if jsDigit c = true then
      Chunk.run (c :: cs.takeWhile (jsDigit ·)) :: toChunksGo f (cs.dropWhile (jsDigit ·))
    else Chunk.sep c :: toChunksGo f cs

def stringChunks (cs : List Char) : List Chunk := toChunksGo (cs.length + 1) cs

/-! ### Derived layout functions used by the claims -/

/-- The cell traces the row loop produces, with the body counter threading
of `exportToPDF` made explicit. -/
def autoNumbered : List TableRow → ℕ → List (List CellDraw)
  | [], _ => []
  | r :: rs, b =>
    if r.isTotal then drawCells r true (-1) :: autoNumbered rs b
    else drawCells r false (b : ℤ) :: autoNumbered rs (b + 1)

/-- The 1-based sequence number of row `j`, counted over non-total rows. -/
def seqNum (rows : List TableRow) (j : ℕ) : ℕ :=
  (rows.take j).countP (fun r => !r.isTotal) + 1

/-! ### Character-class predicates used by the restricted-alphabet lemmas -/

/-- A character that can never start a preposition/abbreviation alternative
of the `i`-flagged patterns: it is its own canonicalization, sorts below
the Cyrillic lowercase block, and is not the Latin `p` of `pred`. -/
def lowChar (c : Char) : Prop := canonChar c = c ∧ c < 'а' ∧ c ≠ 'p'

/-- Sanity shape of an alternation pattern: nonempty, head fixed by
canonicalization and either the Latin `p` or a lowercase Cyrillic letter. -/
def headCk (p : List Char) : Bool :=
  match p with
  | hd :: _ => (canonChar hd == hd) && (hd == 'p' || decide ('а' ≤ hd))
  | [] => false

/-! ## Basic facts about the layout engine -/

theorem le_cellHeightStep (split : String → ℚ → ℕ) (colW : List ℚ) (t : Bool)
    (b : ℤ) (m : ℚ) (i : ℕ) (c : TableCell) :
    m ≤ cellHeightStep split colW t b m i c := by
  unfold cellHeightStep
  dsimp only
  split
  · exact le_trans (le_max_left _ _) (le_max_left _ _)
  · exact le_max_left _ _

theorem le_foldl_cellHeightStep (split : String → ℚ → ℕ) (colW : List ℚ) (t : Bool)
    (b : ℤ) (l : List (ℕ × TableCell)) :
    ∀ a : ℚ, a ≤ l.foldl (fun m p => cellHeightStep split colW t b m p.1 p.2) a := by
  induction l with
  | nil => intro a; simp
  | cons x l ih =>
    intro a
    rw [List.foldl_cons]
    exact le_trans (le_cellHeightStep split colW t b a x.1 x.2) (ih _)

theorem calculateRowHeight_ge_six (split : String → ℚ → ℕ) (colW : List ℚ)
    (row : TableRow) (bIdx : ℤ) : 6 ≤ calculateRowHeight split colW row bIdx := by
  unfold calculateRowHeight
  have h6 : (6.0 : ℚ) = 6 := by norm_num
  rw [h6]
  exact le_foldl_cellHeightStep split colW row.isTotal bIdx row.cells.enum 6

theorem calculateRowHeight_circle (split : String → ℚ → ℕ) (colW : List ℚ)
    (row : TableRow) (bIdx : ℤ) (c0 : TableCell) (rest : List TableCell)
    (ht : row.isTotal = false) (hc : row.cells = c0 :: rest) :
    effCircleSize c0 (effFontSize c0 0) + 2 ≤ calculateRowHeight split colW row bIdx := by
  unfold calculateRowHeight
  rw [hc, ht, List.enum_cons, List.foldl_cons]
  refine le_trans ?_ (le_foldl_cellHeightStep split colW false bIdx _ _)
  unfold cellHeightStep
  dsimp only
  rw [if_pos ⟨rfl, rfl⟩]
  have hpad : UI_cellPadding * 2.5 = 2 := by norm_num [UI_cellPadding]
  rw [hpad]
  exact le_trans (le_max_right _ _) (le_max_left _ _)

/-- C9: for every non-total row, `calculateRowHeight` returns at least the
effective circle diameter of the leading cell (its `circleSize` override in
the JS truthy sense, else 1.6 times the effective font size) plus the
2.0 mm of circle padding (`cellPadding * 2.5`), and never less than the
6.0 mm floor; in particular the filled circle of that diameter drawn
centered at half the row height fits inside the row box. -/
theorem c9_rowHeight_fits_circle (split : String → ℚ → ℕ) (colW : List ℚ)
    (row : TableRow) (bIdx : ℤ) (c0 : TableCell) (rest : List TableCell)
    (ht : row.isTotal = false) (hc : row.cells = c0 :: rest) :
    effCircleSize c0 (effFontSize c0 0) + 2 ≤ calculateRowHeight split colW row bIdx ∧
    6 ≤ calculateRowHeight split colW row bIdx ∧
    effCircleSize c0 (effFontSize c0 0) / 2 ≤ calculateRowHeight split colW row bIdx / 2 := by
  refine ⟨calculateRowHeight_circle split colW row bIdx c0 rest ht hc,
    calculateRowHeight_ge_six split colW row bIdx, ?_⟩
  have h := calculateRowHeight_circle split colW row bIdx c0 rest ht hc
  linarith

/-- Witness for C9 at a concrete one-cell row. -/
theorem c9_rowHeight_fits_circle_witness :
    effCircleSize ⟨"AUTO", none⟩ (effFontSize ⟨"AUTO", none⟩ 0) + 2 ≤
      calculateRowHeight (fun _ _ => 1) [] ⟨[⟨"AUTO", none⟩], false⟩ 0 ∧
    6 ≤ calculateRowHeight (fun _ _ => 1) [] ⟨[⟨"AUTO", none⟩], false⟩ 0 ∧
    effCircleSize ⟨"AUTO", none⟩ (effFontSize ⟨"AUTO", none⟩ 0) / 2 ≤
      calculateRowHeight (fun _ _ => 1) [] ⟨[⟨"AUTO", none⟩], false⟩ 0 / 2 :=
  c9_rowHeight_fits_circle (fun _ _ => 1) [] ⟨[⟨"AUTO", none⟩], false⟩ 0
    ⟨"AUTO", none⟩ [] rfl rfl

theorem Ev_isRow_header : Ev.isRow Ev.header = false := rfl

theorem Ev_isRow_row (y h : ℚ) (cs : List CellDraw) : Ev.isRow (Ev.row y h cs) = true := rfl

theorem Ev_isHeader_header : Ev.isHeader Ev.header = true := rfl

theorem Ev_isHeader_row (y h : ℚ) (cs : List CellDraw) :
    Ev.isHeader (Ev.row y h cs) = false := rfl

theorem countRows_pagesOf (s : LayoutState) :
    (pagesOf s).flatten.countP Ev.isRow =
      s.closedPages.flatten.countP Ev.isRow + s.page.countP Ev.isRow := by
  simp [pagesOf, List.flatten_append, List.countP_append]

/-- Adding a row adds exactly one row event to the trace. -/
theorem pagesOf_drawRow_rowCount (split : String → ℚ → ℕ) (colW : List ℚ)
    (row : TableRow) (isTotal : Bool) (bodyIdx : ℤ) (s : LayoutState) :
    ((pagesOf (drawRow split colW row isTotal bodyIdx s)).flatten.countP Ev.isRow) =
      ((pagesOf s).flatten.countP Ev.isRow) + 1 := by
  unfold drawRow drawHeader
  dsimp only
  rw [countRows_pagesOf, countRows_pagesOf]
  split
  · simp [List.flatten_append, List.countP_append, List.countP_cons, Ev_isRow_header,
      Ev_isRow_row]
  · simp [List.countP_append, List.countP_cons, Ev_isRow_row]
    omega

/-- C10: before placing a row, at most one page break is emitted
(`closedPages` grows by at most one), the row is always placed — exactly
one row event is added to the trace — and it is placed as a single whole
unit: the last event of the current page is one row event carrying the
row's full measured height, also when that height exceeds a page's usable
body height (the drawing simply overflows; there is no splitting and no
error path). -/
theorem c10_row_placed_atomically (split : String → ℚ → ℕ) (colW : List ℚ)
    (row : TableRow) (isTotal : Bool) (bodyIdx : ℤ) (s : LayoutState) :
    (drawRow split colW row isTotal bodyIdx s).closedPages.length ≤
      s.closedPages.length + 1 ∧
    ((pagesOf (drawRow split colW row isTotal bodyIdx s)).flatten.countP Ev.isRow) =
      ((pagesOf s).flatten.countP Ev.isRow) + 1 ∧
    (drawRow split colW row isTotal bodyIdx s).page.getLast? =
      some (Ev.row
        ((drawRow split colW row isTotal bodyIdx s).currentY -
          calculateRowHeight split colW row bodyIdx)
        (calculateRowHeight split colW row bodyIdx)
        (drawCells row isTotal bodyIdx)) := by
  refine ⟨?_, pagesOf_drawRow_rowCount split colW row isTotal bodyIdx s, ?_⟩
  · unfold drawRow drawHeader
    dsimp only
    split
    · simp
    · simp
  · unfold drawRow drawHeader
    dsimp only
    split
    · simp
    · simp

/-- Witness for C10 (the statement is hypothesis-free; instantiated at an
empty row on a fresh state). -/
theorem c10_row_placed_atomically_witness :
    (drawRow (fun _ _ => 1) [] ⟨[], false⟩ false 0 ⟨3, [], []⟩).closedPages.length ≤
      (⟨3, [], []⟩ : LayoutState).closedPages.length + 1 ∧
    ((pagesOf (drawRow (fun _ _ => 1) [] ⟨[], false⟩ false 0 ⟨3, [], []⟩)).flatten.countP
        Ev.isRow) =
      ((pagesOf (⟨3, [], []⟩ : LayoutState)).flatten.countP Ev.isRow) + 1 ∧
    (drawRow (fun _ _ => 1) [] ⟨[], false⟩ false 0 ⟨3, [], []⟩).page.getLast? =
      some (Ev.row
        ((drawRow (fun _ _ => 1) [] ⟨[], false⟩ false 0 ⟨3, [], []⟩).currentY -
          calculateRowHeight (fun _ _ => 1) [] ⟨[], false⟩ 0)
        (calculateRowHeight (fun _ _ => 1) [] ⟨[], false⟩ 0)
        (drawCells ⟨[], false⟩ false 0)) :=
  c10_row_placed_atomically (fun _ _ => 1) [] ⟨[], false⟩ false 0 ⟨3, [], []⟩

/-! ## The header-per-page invariant (C2) -/

theorem drawRow_headerInv (split : String → ℚ → ℕ) (colW : List ℚ)
    (row : TableRow) (isTotal : Bool) (bodyIdx : ℤ) (s : LayoutState)
    (hclosed : ∀ p ∈ s.closedPages, p.countP Ev.isHeader = 1 ∧ p.head? = some Ev.header)
    (hpage : s.page.countP Ev.isHeader = 1 ∧ s.page.head? = some Ev.header) :
    (∀ p ∈ (drawRow split colW row isTotal bodyIdx s).closedPages,
        p.countP Ev.isHeader = 1 ∧ p.head? = some Ev.header) ∧
    ((drawRow split colW row isTotal bodyIdx s).page.countP Ev.isHeader = 1 ∧
      (drawRow split colW row isTotal bodyIdx s).page.head? = some Ev.header) := by
  unfold drawRow drawHeader
  dsimp only
  split
  · refine ⟨?_, ?_, ?_⟩
    · intro p hp
      rcases List.mem_append.mp hp with h | h
      · exact hclosed p h
      · rcases List.mem_singleton.mp h with rfl
        exact hpage
    · simp [List.countP_cons, Ev_isHeader_header, Ev_isHeader_row]
    · simp
  · obtain ⟨h1, h2⟩ := hpage
    refine ⟨hclosed, ?_, ?_⟩
    · simp [List.countP_append, List.countP_cons, Ev_isHeader_row, h1]
    · cases hp : s.page with
      | nil => rw [hp] at h2; simp at h2
      | cons e t =>
        rw [hp] at h2
        simp at h2
        simp [hp, h2]

theorem placeRows_headerInv (split : String → ℚ → ℕ) (colW : List ℚ) :
    ∀ (rows : List TableRow) (b : ℕ) (s : LayoutState),
      (∀ p ∈ s.closedPages, p.countP Ev.isHeader = 1 ∧ p.head? = some Ev.header) →
      (s.page.countP Ev.isHeader = 1 ∧ s.page.head? = some Ev.header) →
      ∀ p ∈ pagesOf (placeRows split colW rows b s),
        p.countP Ev.isHeader = 1 ∧ p.head? = some Ev.header := by
  intro rows
  induction rows with
  | nil =>
    intro b s hclosed hpage p hp
    unfold placeRows pagesOf at hp
    rcases List.mem_append.mp hp with h | h
    · exact hclosed p h
    · rcases List.mem_singleton.mp h with rfl
      exact hpage
  | cons r rs ih =>
    intro b s hclosed hpage p hp
    unfold placeRows at hp
    split at hp
    · obtain ⟨h1, h2⟩ := drawRow_headerInv split colW r true (-1) s hclosed hpage
      exact ih b _ h1 h2 p hp
    · obtain ⟨h1, h2⟩ := drawRow_headerInv split colW r false (b : ℤ) s hclosed hpage
      exact ih (b + 1) _ h1 h2 p hp

/-- C2: in every export, every emitted page — the first included — carries
the header exactly once, as its first event: the first page is opened with
`drawHeader`, and each page break resets `currentY` to the top margin and
re-draws the header before the pending row is placed. -/
theorem c2_header_once_per_page (split : String → ℚ → ℕ) (colW : List ℚ)
    (rows : List TableRow) :
    ∀ p ∈ pagesOf (exportToPDF split colW rows),
      p.countP Ev.isHeader = 1 ∧ p.head? = some Ev.header := by
  unfold exportToPDF
  refine placeRows_headerInv split colW rows 0 _ ?_ ?_
  · intro p hp
    simp [drawHeader] at hp
  · constructor
    · simp [drawHeader, List.countP_cons, Ev_isHeader_header]
    · simp [drawHeader]

/-- Witness for C2 at a concrete document of two rows. -/
theorem c2_header_once_per_page_witness :
    ((exportToPDF (fun _ _ => 1) [] [⟨[], true⟩, ⟨[], false⟩]).page.countP
        Ev.isHeader = 1 ∧
      (exportToPDF (fun _ _ => 1) [] [⟨[], true⟩, ⟨[], false⟩]).page.head? =
        some Ev.header) :=
  c2_header_once_per_page (fun _ _ => 1) [] [⟨[], true⟩, ⟨[], false⟩]
    _ (by simp [pagesOf])

/-! ## Ordered fallback of the font resolver (C5) -/

/-- C5: `fetchWithFallback` attempts the sources strictly in order; a
source fails when the fetch rejects, the response status is not ok, or
the payload is under the 5000-byte sanity threshold; the first succeeding
source's bytes are returned (no later source is consulted), and the
function throws exactly when every source failed. -/
theorem c5_fetchWithFallback_ordered (rs : List (Option FetchResponse)) :
    (∀ buf, fetchWithFallback rs = Except.ok buf ↔
      ∃ (i : ℕ) (r : Option FetchResponse), rs[i]? = some r ∧
        fetchAttempt r = some buf ∧
        ∀ (j : ℕ) (r' : Option FetchResponse),
          j < i → rs[j]? = some r' → fetchAttempt r' = none) ∧
    ((∃ e, fetchWithFallback rs = Except.error e) ↔
      ∀ r ∈ rs, fetchAttempt r = none) := by
  induction rs with
  | nil =>
    constructor
    · intro buf
      constructor
      · intro h
        simp [fetchWithFallback] at h
      · rintro ⟨i, r, hr, -, -⟩
        simp at hr
    · simp [fetchWithFallback]
  | cons r rs ih =>
    rcases h : fetchAttempt r with - | buf0
    · have hstep : fetchWithFallback (r :: rs) = fetchWithFallback rs := by
        simp [fetchWithFallback, h]
      constructor
      · intro buf
        rw [hstep, ih.1 buf]
        constructor
        · rintro ⟨i, rr, hget, hat, hbef⟩
          refine ⟨i + 1, rr, by simpa using hget, hat, ?_⟩
          rintro j r' hj hg
          cases j with
          | zero =>
            simp at hg
            subst hg
            exact h
          | succ j => exact hbef j r' (by omega) (by simpa using hg)
        · rintro ⟨i, rr, hget, hat, hbef⟩
          cases i with
          | zero =>
            simp at hget
            subst hget
            rw [h] at hat
            cases hat
          | succ i =>
            exact ⟨i, rr, by simpa using hget, hat,
              fun j r' hj hg => hbef (j + 1) r' (by omega) (by simpa using hg)⟩
      · rw [hstep, ih.2]
        constructor
        · intro hall r' hr'
          rcases List.mem_cons.mp hr' with rfl | hr'
          · exact h
          · exact hall r' hr'
        · intro hall r' hr'
          exact hall r' (List.mem_cons_of_mem _ hr')
    · have hstep : fetchWithFallback (r :: rs) = Except.ok buf0 := by
        simp [fetchWithFallback, h]
      constructor
      · intro buf
        rw [hstep]
        constructor
        · intro hb
          refine ⟨0, r, by simp, ?_, ?_⟩
          · rw [h]
            simpa using hb
          · intro j r' hj
            omega
        · rintro ⟨i, rr, hget, hat, hbef⟩
          cases i with
          | zero =>
            simp at hget
            subst hget
            rw [h] at hat
            rw [(Option.some.injEq _ _).mp hat]
          | succ i =>
            have := hbef 0 r (by omega) (by simp)
            rw [this] at h
            cases h
      · rw [hstep]
        constructor
        · rintro ⟨e, he⟩
          cases he
        · intro hall
          have := hall r (by simp)
          rw [this] at h
          cases h

/-- Witness for C5: with a rejected fetch followed by a non-ok response,
resolution fails fatally. -/
theorem c5_fetchWithFallback_ordered_witness :
    ∃ e, fetchWithFallback [none, some ⟨false, []⟩] = Except.error e :=
  (c5_fetchWithFallback_ordered [none, some ⟨false, []⟩]).2.mpr (by
    intro r hr
    rcases List.mem_cons.mp hr with rfl | hr
    · rfl
    · rcases List.mem_singleton.mp hr with rfl
      rfl)

/-! ## The row trace and the auto-numbering sequence (C6, C8) -/

theorem rowCellsOf_drawRow (split : String → ℚ → ℕ) (colW : List ℚ)
    (row : TableRow) (t : Bool) (b : ℤ) (s : LayoutState) :
    rowCellsOf (drawRow split colW row t b s) = rowCellsOf s ++ [drawCells row t b] := by
  unfold drawRow drawHeader rowCellsOf pagesOf
  dsimp only
  split
  · simp [List.flatten_append, List.filterMap_append]
  · simp [List.flatten_append, List.filterMap_append]

theorem rowCellsOf_placeRows (split : String → ℚ → ℕ) (colW : List ℚ) :
    ∀ (rows : List TableRow) (b : ℕ) (s : LayoutState),
      rowCellsOf (placeRows split colW rows b s) = rowCellsOf s ++ autoNumbered rows b := by
  intro rows
  induction rows with
  | nil =>
    intro b s
    simp [placeRows, autoNumbered]
  | cons r rs ih =>
    intro b s
    by_cases hrt : r.isTotal = true
    · rw [show placeRows split colW (r :: rs) b s =
          placeRows split colW rs b (drawRow split colW r true (-1) s) from by
            simp [placeRows, hrt]]
      rw [ih, rowCellsOf_drawRow]
      rw [show autoNumbered (r :: rs) b = drawCells r true (-1) :: autoNumbered rs b from by
        simp [autoNumbered, hrt]]
      simp
    · rw [show placeRows split colW (r :: rs) b s =
          placeRows split colW rs (b + 1) (drawRow split colW r false (b : ℤ) s) from by
            simp [placeRows, hrt]]
      rw [ih, rowCellsOf_drawRow]
      rw [show autoNumbered (r :: rs) b =
          drawCells r false (b : ℤ) :: autoNumbered rs (b + 1) from by
        simp [autoNumbered, hrt]]
      simp

theorem rowCellsOf_export (split : String → ℚ → ℕ) (colW : List ℚ)
    (rows : List TableRow) :
    rowCellsOf (exportToPDF split colW rows) = autoNumbered rows 0 := by
  unfold exportToPDF
  rw [rowCellsOf_placeRows]
  have hinit : rowCellsOf (drawHeader ⟨MARGIN_MM, [], []⟩) = [] := by
    simp [drawHeader, rowCellsOf, pagesOf]
  rw [hinit]
  simp

theorem autoNumbered_get (rows : List TableRow) :
    ∀ (b j : ℕ) (row : TableRow), rows[j]? = some row →
      (autoNumbered rows b)[j]? =
        some (if row.isTotal then drawCells row true (-1)
          else drawCells row false
            ((b + (rows.take j).countP (fun r => !r.isTotal) : ℕ) : ℤ)) := by
  induction rows with
  | nil =>
    intro b j row h
    simp at h
  | cons r rs ih =>
    intro b j row h
    cases j with
    | zero =>
      have hr : r = row := by simpa using h
      subst hr
      by_cases hrt : r.isTotal = true
      · simp [autoNumbered, hrt]
      · simp only [Bool.not_eq_true] at hrt
        simp [autoNumbered, hrt]
    | succ j =>
      have h' : rs[j]? = some row := by simpa using h
      by_cases hrt : r.isTotal = true
      · rw [show autoNumbered (r :: rs) b = drawCells r true (-1) :: autoNumbered rs b from by
          simp [autoNumbered, hrt]]
        rw [List.getElem?_cons_succ, ih b j row h']
        by_cases hrow : row.isTotal = true
        · simp [hrow]
        · simp only [Bool.not_eq_true] at hrow
          simp only [hrow, if_false, Bool.false_eq_true]
          congr 2
          rw [List.take_succ_cons, List.countP_cons]
          simp [hrt]
      · rw [show autoNumbered (r :: rs) b =
            drawCells r false (b : ℤ) :: autoNumbered rs (b + 1) from by
          simp [autoNumbered, hrt]]
        rw [List.getElem?_cons_succ, ih (b + 1) j row h']
        by_cases hrow : row.isTotal = true
        · simp [hrow]
        · simp only [Bool.not_eq_true] at hrow
          simp only [hrow, if_false, Bool.false_eq_true]
          congr 2
          rw [List.take_succ_cons, List.countP_cons]
          simp only [Bool.not_eq_true] at hrt
          rw [hrt]
          simp
          omega

theorem drawCells_circled_only (row : TableRow) (t : Bool) (b : ℤ) (k : ℕ) (d : CellDraw)
    (hk : (drawCells row t b)[k]? = some d) (hd : d.isCircled = true) :
    k = 0 ∧ t = false := by
  unfold drawCells at hk
  rw [List.getElem?_map, List.getElem?_enum] at hk
  rcases hcell : row.cells[k]? with - | cell
  · rw [hcell] at hk
    simp at hk
  · rw [hcell] at hk
    simp only [Option.map_some'] at hk
    by_cases hcond : k = 0 ∧ t = false
    · exact hcond
    · rw [if_neg hcond] at hk
      have hd' := (Option.some.injEq _ _).mp hk
      rw [← hd'] at hd
      simp [CellDraw.isCircled] at hd

theorem drawCells_head_nonTotal (row : TableRow) (b : ℤ) (c0 : TableCell)
    (crest : List TableCell) (hc : row.cells = c0 :: crest) :
    (drawCells row false b).head? =
      some (CellDraw.circled (formatRussianText (cellText 0 c0 b))) := by
  unfold drawCells
  rw [hc, List.enum_cons]
  simp

theorem drawCells_head_total (row : TableRow) (b : ℤ) (c0 : TableCell)
    (crest : List TableCell) (hc : row.cells = c0 :: crest) :
    (drawCells row true b).head? =
      some (CellDraw.plain (formatRussianText (cellText 0 c0 b))) := by
  unfold drawCells
  rw [hc, List.enum_cons]
  simp

/-- C6: in the export trace, the filled circle of the leading column is
drawn exactly on the non-total rows, and when the leading cell holds the
literal placeholder `AUTO`, the circle carries the row's 1-based sequence
number counted over non-total rows only (total rows do not advance the
counter); the number is rendered through the normalizer like any cell
text. -/
theorem c6_circle_only_nonTotal_numbered (split : String → ℚ → ℕ) (colW : List ℚ)
    (rows : List TableRow) (j : ℕ) (row : TableRow) (hj : rows[j]? = some row) :
    ∃ cells, (rowCellsOf (exportToPDF split colW rows))[j]? = some cells ∧
      (∀ (k : ℕ) (d : CellDraw), cells[k]? = some d → d.isCircled = true →
        k = 0 ∧ row.isTotal = false) ∧
      (row.isTotal = false → ∀ (c0 : TableCell) (crest : List TableCell),
        row.cells = c0 :: crest →
        cells.head? = some (CellDraw.circled (formatRussianText
          (if c0.value = "AUTO" then toString ((seqNum rows j : ℕ) : ℤ)
           else c0.value)))) := by
  rw [rowCellsOf_export, autoNumbered_get rows 0 j row hj]
  refine ⟨_, rfl, ?_, ?_⟩
  · intro k d hk hd
    by_cases hrt : row.isTotal = true
    · rw [if_pos hrt] at hk
      exact absurd (drawCells_circled_only row true (-1) k d hk hd).2 (by simp)
    · simp only [Bool.not_eq_true] at hrt
      exact ⟨(drawCells_circled_only row false _ k d (by rwa [if_neg (by simp [hrt])] at hk)
        hd).1, hrt⟩
  · intro hrt c0 crest hc
    rw [if_neg (by simp [hrt])]
    rw [drawCells_head_nonTotal row _ c0 crest hc]
    congr 2
    unfold cellText
    by_cases hv : c0.value = "AUTO"
    · rw [if_pos ⟨rfl, hv⟩, if_pos hv]
      congr 1
      unfold seqNum
      push_cast
      ring_nf
    · rw [if_neg (by simp [hv]), if_neg hv]

/-- Witness for C6 at a concrete two-row document (one total row, one body
row with the `AUTO` placeholder, numbered 1). -/
theorem c6_circle_only_nonTotal_numbered_witness :
    ∃ cells, (rowCellsOf (exportToPDF (fun _ _ => 1) []
        [⟨[⟨"AUTO", none⟩], true⟩, ⟨[⟨"AUTO", none⟩], false⟩]))[1]? = some cells ∧
      (∀ (k : ℕ) (d : CellDraw), cells[k]? = some d → d.isCircled = true →
        k = 0 ∧ (⟨[⟨"AUTO", none⟩], false⟩ : TableRow).isTotal = false) ∧
      ((⟨[⟨"AUTO", none⟩], false⟩ : TableRow).isTotal = false →
        ∀ (c0 : TableCell) (crest : List TableCell),
        (⟨[⟨"AUTO", none⟩], false⟩ : TableRow).cells = c0 :: crest →
        cells.head? = some (CellDraw.circled (formatRussianText
          (if c0.value = "AUTO" then
            toString ((seqNum [⟨[⟨"AUTO", none⟩], true⟩, ⟨[⟨"AUTO", none⟩], false⟩] 1 : ℕ) : ℤ)
           else c0.value)))) :=
  c6_circle_only_nonTotal_numbered (fun _ _ => 1) []
    [⟨[⟨"AUTO", none⟩], true⟩, ⟨[⟨"AUTO", none⟩], false⟩] 1 ⟨[⟨"AUTO", none⟩], false⟩ rfl

/-- C8: a total row whose leading cell is the literal `AUTO` renders the
string `0` there: `exportToPDF` passes `bodyIdx = -1` for total rows and
`drawRow` substitutes `(bodyIdx + 1).toString()`, so the placeholder is
neither kept literally nor skipped. -/
theorem c8_total_auto_renders_zero (split : String → ℚ → ℕ) (colW : List ℚ)
    (rows : List TableRow) (j : ℕ) (row : TableRow) (c0 : TableCell)
    (crest : List TableCell) (hj : rows[j]? = some row) (ht : row.isTotal = true)
    (hc : row.cells = c0 :: crest) (hv : c0.value = "AUTO") :
    ∃ cells, (rowCellsOf (exportToPDF split colW rows))[j]? = some cells ∧
      cells.head? = some (CellDraw.plain "0") := by
  rw [rowCellsOf_export, autoNumbered_get rows 0 j row hj, if_pos ht]
  refine ⟨_, rfl, ?_⟩
  rw [drawCells_head_total row (-1) c0 crest hc]
  congr 2
  unfold cellText
  rw [if_pos ⟨rfl, hv⟩]
  have h0 : ((-1 : ℤ) + 1) = 0 := by norm_num
  rw [h0]
  decide

/-- Witness for C8 at a concrete one-row document. -/
theorem c8_total_auto_renders_zero_witness :
    ∃ cells, (rowCellsOf (exportToPDF (fun _ _ => 1) []
        [⟨[⟨"AUTO", none⟩], true⟩]))[0]? = some cells ∧
      cells.head? = some (CellDraw.plain "0") :=
  c8_total_auto_renders_zero (fun _ _ => 1) [] [⟨[⟨"AUTO", none⟩], true⟩] 0
    ⟨[⟨"AUTO", none⟩], true⟩ ⟨"AUTO", none⟩ [] rfl rfl rfl rfl

/-! ## Character facts -/

theorem char_eq_of_toNat {c x : Char} (h : c.toNat = x.toNat) : c = x := by
  apply Char.ext
  exact UInt32.toNat.inj h

theorem jsDigit_bounds {c : Char} (h : jsDigit c = true) :
    48 ≤ c.toNat ∧ c.toNat ≤ 57 := by
  simp only [jsDigit, Bool.and_eq_true, decide_eq_true_eq] at h
  exact ⟨h.1, h.2⟩

theorem digit_char_cases {c : Char} (h : jsDigit c = true) :
    c = '0' ∨ c = '1' ∨ c = '2' ∨ c = '3' ∨ c = '4' ∨ c = '5' ∨ c = '6' ∨ c = '7' ∨
      c = '8' ∨ c = '9' := by
  have hb := jsDigit_bounds h
  have h10 : c.toNat = 48 ∨ c.toNat = 49 ∨ c.toNat = 50 ∨ c.toNat = 51 ∨
      c.toNat = 52 ∨ c.toNat = 53 ∨ c.toNat = 54 ∨ c.toNat = 55 ∨ c.toNat = 56 ∨
      c.toNat = 57 := by omega
  rcases h10 with h'|h'|h'|h'|h'|h'|h'|h'|h'|h'
  · exact Or.inl (char_eq_of_toNat h')
  · exact Or.inr (Or.inl (char_eq_of_toNat h'))
  · exact Or.inr (Or.inr (Or.inl (char_eq_of_toNat h')))
  · exact Or.inr (Or.inr (Or.inr (Or.inl (char_eq_of_toNat h'))))
  · exact Or.inr (Or.inr (Or.inr (Or.inr (Or.inl (char_eq_of_toNat h')))))
  · exact Or.inr (Or.inr (Or.inr (Or.inr (Or.inr (Or.inl (char_eq_of_toNat h'))))))
  · exact Or.inr (Or.inr (Or.inr (Or.inr (Or.inr (Or.inr (Or.inl
      (char_eq_of_toNat h')))))))
  · exact Or.inr (Or.inr (Or.inr (Or.inr (Or.inr (Or.inr (Or.inr (Or.inl
      (char_eq_of_toNat h'))))))))
  · exact Or.inr (Or.inr (Or.inr (Or.inr (Or.inr (Or.inr (Or.inr (Or.inr (Or.inl
      (char_eq_of_toNat h')))))))))
  · exact Or.inr (Or.inr (Or.inr (Or.inr (Or.inr (Or.inr (Or.inr (Or.inr (Or.inr
      (char_eq_of_toNat h')))))))))

/-- The facts needed about every character of a digits-and-spaces string
(the alphabet of the amended idempotence claim, closed under grouping). -/
theorem A1_char_facts {c : Char} (h : c = ' ' ∨ c = NBSP ∨ jsDigit c = true) :
    c ≠ 'м' ∧ c ≠ '"' ∧ lowChar c ∧ c ≠ ',' ∧ c ≠ '№' ∧ c ≠ '(' ∧ c ≠ ')' ∧
      c ≠ '-' := by
  simp only [lowChar]
  rcases h with rfl | rfl | h
  · decide
  · decide
  · rcases digit_char_cases h with rfl|rfl|rfl|rfl|rfl|rfl|rfl|rfl|rfl|rfl <;> decide

/-- The facts needed about every character of a digits-and-comma string
(the alphabet of the amended decimal-fraction claim). -/
theorem A7_char_facts {c : Char} (h : c = ',' ∨ jsDigit c = true) :
    c ≠ 'м' ∧ c ≠ '"' ∧ lowChar c ∧ jsSpace c = false ∧ c ≠ '№' ∧ c ≠ '(' ∧
      c ≠ ')' ∧ c ≠ '-' := by
  simp only [lowChar]
  rcases h with rfl | h
  · decide
  · rcases digit_char_cases h with rfl|rfl|rfl|rfl|rfl|rfl|rfl|rfl|rfl|rfl <;> decide

/-! ## The alternation matchers fail on blocked characters -/

theorem matchCI_cons_ne {hd : Char} (tl : List Char) {c : Char} (cs : List Char)
    (h : canonChar c ≠ canonChar hd) : matchCI (hd :: tl) (c :: cs) = none := by
  simp [matchCI, h]

theorem matchCI_nil_input {p : List Char} (hp : p ≠ []) : matchCI p [] = none := by
  cases p with
  | nil => exact absurd rfl hp
  | cons hd tl => rfl

theorem headCk_shape {p : List Char} (h : headCk p = true) :
    ∃ hd tl, p = hd :: tl ∧ canonChar hd = hd ∧ (hd = 'p' ∨ 'а' ≤ hd) := by
  cases p with
  | nil => simp [headCk] at h
  | cons hd tl =>
    simp only [headCk, Bool.and_eq_true, Bool.or_eq_true, beq_iff_eq,
      decide_eq_true_eq] at h
    exact ⟨hd, tl, rfl, h.1, h.2⟩

theorem lowChar_canon_ne {c hd : Char} (hc : lowChar c) (hhd : canonChar hd = hd)
    (hor : hd = 'p' ∨ 'а' ≤ hd) : canonChar c ≠ canonChar hd := by
  rw [hc.1, hhd]
  rcases hor with rfl | hge
  · exact hc.2.2
  · exact ne_of_lt (lt_of_lt_of_le hc.2.1 hge)

theorem tryPrepAux_none_nil (ps : List (List Char)) (hps : ps.all headCk = true) :
    tryPrepAux ps [] = none := by
  induction ps with
  | nil => rfl
  | cons p ps ih =>
    have hck : headCk p = true ∧ ps.all headCk = true := by simpa using hps
    obtain ⟨hd, tl, rfl, -, -⟩ := headCk_shape hck.1
    simp only [tryPrepAux]
    rw [matchCI_nil_input (by simp)]
    exact ih hck.2

theorem tryPrepAux_none_low (ps : List (List Char)) {c : Char} (cs : List Char)
    (hps : ps.all headCk = true) (hc : lowChar c) : tryPrepAux ps (c :: cs) = none := by
  induction ps with
  | nil => rfl
  | cons p ps ih =>
    have hck : headCk p = true ∧ ps.all headCk = true := by simpa using hps
    obtain ⟨hd, tl, rfl, hhd, hor⟩ := headCk_shape hck.1
    simp only [tryPrepAux]
    rw [matchCI_cons_ne tl cs (lowChar_canon_ne hc hhd hor)]
    exact ih hck.2

theorem tryLeadAux_none_nil (ps : List (List Char)) (hps : ps.all headCk = true) :
    tryLeadAux ps [] = none := by
  induction ps with
  | nil => rfl
  | cons p ps ih =>
    have hck : headCk p = true ∧ ps.all headCk = true := by simpa using hps
    obtain ⟨hd, tl, rfl, -, -⟩ := headCk_shape hck.1
    simp only [tryLeadAux]
    rw [matchCI_nil_input (by simp)]
    exact ih hck.2

theorem tryLeadAux_none_low (ps : List (List Char)) {c : Char} (cs : List Char)
    (hps : ps.all headCk = true) (hc : lowChar c) : tryLeadAux ps (c :: cs) = none := by
  induction ps with
  | nil => rfl
  | cons p ps ih =>
    have hck : headCk p = true ∧ ps.all headCk = true := by simpa using hps
    obtain ⟨hd, tl, rfl, hhd, hor⟩ := headCk_shape hck.1
    simp only [tryLeadAux]
    rw [matchCI_cons_ne tl cs (lowChar_canon_ne hc hhd hor)]
    exact ih hck.2

theorem tryTrailAux_none_nil (ps : List (List Char)) (hps : ps.all headCk = true) :
    tryTrailAux ps [] = none := by
  induction ps with
  | nil => rfl
  | cons p ps ih =>
    have hck : headCk p = true ∧ ps.all headCk = true := by simpa using hps
    obtain ⟨hd, tl, rfl, -, -⟩ := headCk_shape hck.1
    simp only [tryTrailAux]
    rw [matchCI_nil_input (by simp)]
    exact ih hck.2

theorem tryTrailAux_none_low (ps : List (List Char)) {c : Char} (cs : List Char)
    (hps : ps.all headCk = true) (hc : lowChar c) : tryTrailAux ps (c :: cs) = none := by
  induction ps with
  | nil => rfl
  | cons p ps ih =>
    have hck : headCk p = true ∧ ps.all headCk = true := by simpa using hps
    obtain ⟨hd, tl, rfl, hhd, hor⟩ := headCk_shape hck.1
    simp only [tryTrailAux]
    rw [matchCI_cons_ne tl cs (lowChar_canon_ne hc hhd hor)]
    exact ih hck.2

theorem preps_headCk : preps.all headCk = true := by decide

theorem leadAbbrs_headCk : leadAbbrs.all headCk = true := by decide

theorem trailAbbrs_headCk : trailAbbrs.all headCk = true := by decide

/-! ## Each pass is the identity on strings without its trigger characters -/

theorem m2Go_id (f : ℕ) (cs : List Char) (h : ∀ c ∈ cs, c ≠ 'м') :
    m2Go f cs = cs := by
  induction f generalizing cs with
  | zero => rfl
  | succ f ih =>
    cases cs with
    | nil => rfl
    | cons c cs =>
      simp only [m2Go]
      rw [if_neg (h c (by simp))]
      rw [ih cs (fun d hd => h d (by simp [hd]))]

theorem m3Go_id (f : ℕ) (cs : List Char) (h : ∀ c ∈ cs, c ≠ 'м') :
    m3Go f cs = cs := by
  induction f generalizing cs with
  | zero => rfl
  | succ f ih =>
    cases cs with
    | nil => rfl
    | cons c cs =>
      simp only [m3Go]
      rw [if_neg (h c (by simp))]
      rw [ih cs (fun d hd => h d (by simp [hd]))]

theorem quoteOpenGo_id (prev : Option Char) (cs : List Char)
    (h : ∀ c ∈ cs, c ≠ '"') : quoteOpenGo prev cs = cs := by
  induction cs generalizing prev with
  | nil => rfl
  | cons c cs ih =>
    simp only [quoteOpenGo]
    rw [if_neg (fun hAnd => h c (by simp) hAnd.1)]
    rw [ih (some c) (fun d hd => h d (by simp [hd]))]

theorem quoteCloseGo_id (cs : List Char) (h : ∀ c ∈ cs, c ≠ '"') :
    quoteCloseGo cs = cs := by
  induction cs with
  | nil => rfl
  | cons c cs ih =>
    simp only [quoteCloseGo, List.map_cons]
    rw [if_neg (h c (by simp))]
    have := ih (fun d hd => h d (by simp [hd]))
    simp only [quoteCloseGo] at this
    rw [this]

theorem prepGo_id (f : ℕ) (b : Bool) (cs : List Char) (h : ∀ c ∈ cs, lowChar c) :
    prepGo f b cs = cs := by
  induction f generalizing b cs with
  | zero => rfl
  | succ f ih =>
    cases cs with
    | nil => rfl
    | cons c cs =>
      have h1 : tryPrepAux preps (c :: cs) = none :=
        tryPrepAux_none_low preps cs preps_headCk (h c (by simp))
      have h2 : tryPrepAux preps cs = none := by
        cases cs with
        | nil => exact tryPrepAux_none_nil preps preps_headCk
        | cons d ds => exact tryPrepAux_none_low preps ds preps_headCk (h d (by simp))
      have hrec : prepGo f false cs = cs := ih false cs (fun d hd => h d (by simp [hd]))
      cases b with
      | false =>
        have hstep : prepGo (f + 1) false (c :: cs) = c :: prepGo f false cs := by
          simp [prepGo, tryPrep, h2]
        rw [hstep, hrec]
      | true =>
        have hstep : prepGo (f + 1) true (c :: cs) = c :: prepGo f false cs := by
          simp [prepGo, tryPrep, h1, h2]
        rw [hstep, hrec]

theorem prepPass_id (cs : List Char) (h : ∀ c ∈ cs, lowChar c) : prepPass cs = cs :=
  prepGo_id _ true cs h

theorem leadGo_id (f : ℕ) (b : Bool) (cs : List Char) (h : ∀ c ∈ cs, lowChar c) :
    leadGo f b cs = cs := by
  induction f generalizing b cs with
  | zero => rfl
  | succ f ih =>
    cases cs with
    | nil => rfl
    | cons c cs =>
      have h1 : tryLeadAux leadAbbrs (c :: cs) = none :=
        tryLeadAux_none_low leadAbbrs cs leadAbbrs_headCk (h c (by simp))
      have h2 : tryLeadAux leadAbbrs cs = none := by
        cases cs with
        | nil => exact tryLeadAux_none_nil leadAbbrs leadAbbrs_headCk
        | cons d ds =>
          exact tryLeadAux_none_low leadAbbrs ds leadAbbrs_headCk (h d (by simp))
      have hrec : leadGo f false cs = cs := ih false cs (fun d hd => h d (by simp [hd]))
      cases b with
      | false =>
        have hstep : leadGo (f + 1) false (c :: cs) = c :: leadGo f false cs := by
          simp [leadGo, tryLead, h2]
        rw [hstep, hrec]
      | true =>
        have hstep : leadGo (f + 1) true (c :: cs) = c :: leadGo f false cs := by
          simp [leadGo, tryLead, h1, h2]
        rw [hstep, hrec]

theorem leadPass_id (cs : List Char) (h : ∀ c ∈ cs, lowChar c) : leadPass cs = cs :=
  leadGo_id _ true cs h

theorem commaGo_id_noComma (f : ℕ) (cs : List Char) (h : ∀ c ∈ cs, c ≠ ',') :
    commaGo f cs = cs := by
  induction f generalizing cs with
  | zero => rfl
  | succ f ih =>
    cases cs with
    | nil => rfl
    | cons c cs =>
      simp only [commaGo]
      rw [if_neg (fun hAnd => h c (by simp) hAnd.1)]
      rw [ih cs (fun d hd => h d (by simp [hd]))]

theorem commaGo_id_noWs (f : ℕ) (cs : List Char) (h : ∀ c ∈ cs, jsSpace c = false) :
    commaGo f cs = cs := by
  induction f generalizing cs with
  | zero => rfl
  | succ f ih =>
    cases cs with
    | nil => rfl
    | cons c cs =>
      simp only [commaGo]
      rw [if_neg ?_]
      · rw [ih cs (fun d hd => h d (by simp [hd]))]
      · rintro ⟨-, h2, -⟩
        cases cs with
        | nil => simp [headIs] at h2
        | cons d ds =>
          simp only [headIs] at h2
          rw [h d (by simp)] at h2
          cases h2

theorem trailGo_id (f : ℕ) (cs : List Char) (h : ∀ c ∈ cs, lowChar c) :
    trailGo f cs = cs := by
  induction f generalizing cs with
  | zero => rfl
  | succ f ih =>
    cases cs with
    | nil => rfl
    | cons c cs =>
      have hnone : tryTrailAux trailAbbrs (cs.dropWhile (jsSpace ·)) = none := by
        cases hdw : cs.dropWhile (jsSpace ·) with
        | nil => exact tryTrailAux_none_nil trailAbbrs trailAbbrs_headCk
        | cons d ds =>
          have hd : d ∈ cs := (List.dropWhile_sublist _).subset
            (hdw ▸ List.mem_cons_self d ds)
          exact tryTrailAux_none_low trailAbbrs ds trailAbbrs_headCk
            (h d (by simp [hd]))
      simp only [trailGo, hnone]
      have hrec := ih cs (fun d hd => h d (by simp [hd]))
      split
      · rw [hrec]
      · rw [hrec]

theorem numSignGo_id (f : ℕ) (cs : List Char) (h : ∀ c ∈ cs, c ≠ '№') :
    numSignGo f cs = cs := by
  induction f generalizing cs with
  | zero => rfl
  | succ f ih =>
    cases cs with
    | nil => rfl
    | cons c cs =>
      simp only [numSignGo]
      rw [if_neg (h c (by simp))]
      rw [ih cs (fun d hd => h d (by simp [hd]))]

theorem parenBindGo_id (f : ℕ) (cs : List Char) (h : ∀ c ∈ cs, c ≠ '(') :
    parenBindGo f cs = cs := by
  induction f generalizing cs with
  | zero => rfl
  | succ f ih =>
    cases cs with
    | nil => rfl
    | cons c cs =>
      have hrec := ih cs (fun d hd => h d (by simp [hd]))
      simp only [parenBindGo]
      split
      · split
        · rename_i heq
          exfalso
          have : '(' ∈ cs := (List.dropWhile_sublist _).subset
            (heq ▸ List.mem_cons_self _ _)
          exact h '(' (by simp [this]) rfl
        · rw [hrec]
      · rw [hrec]

theorem parenWrapGo_id (f : ℕ) (cs : List Char) (h : ∀ c ∈ cs, c ≠ '(') :
    parenWrapGo f cs = cs := by
  induction f generalizing cs with
  | zero => rfl
  | succ f ih =>
    cases cs with
    | nil => rfl
    | cons c cs =>
      simp only [parenWrapGo]
      rw [if_neg (fun hAnd => h c (by simp) hAnd.1)]
      rw [ih cs (fun d hd => h d (by simp [hd]))]

theorem parenOpenWsGo_id (f : ℕ) (cs : List Char) (h : ∀ c ∈ cs, c ≠ '(') :
    parenOpenWsGo f cs = cs := by
  induction f generalizing cs with
  | zero => rfl
  | succ f ih =>
    cases cs with
    | nil => rfl
    | cons c cs =>
      simp only [parenOpenWsGo]
      rw [if_neg (fun hAnd => h c (by simp) hAnd.1)]
      rw [ih cs (fun d hd => h d (by simp [hd]))]

theorem wsCloseGo_id (f : ℕ) (cs : List Char) (h : ∀ c ∈ cs, c ≠ ')') :
    wsCloseGo f cs = cs := by
  induction f generalizing cs with
  | zero => rfl
  | succ f ih =>
    cases cs with
    | nil => rfl
    | cons c cs =>
      simp only [wsCloseGo]
      rw [if_neg ?_]
      · rw [ih cs (fun d hd => h d (by simp [hd]))]
      · rintro ⟨-, h2⟩
        cases hdw : cs.dropWhile (jsSpace ·) with
        | nil => rw [hdw] at h2; simp [headIs] at h2
        | cons d ds =>
          rw [hdw] at h2
          simp only [headIs, beq_iff_eq] at h2
          have hd : d ∈ cs := (List.dropWhile_sublist _).subset
            (hdw ▸ List.mem_cons_self d ds)
          exact h d (by simp [hd]) (by exact_mod_cast h2)

theorem rangeDashGo_id (f : ℕ) (cs : List Char) (h : ∀ c ∈ cs, c ≠ '-') :
    rangeDashGo f cs = cs := by
  induction f generalizing cs with
  | zero => rfl
  | succ f ih =>
    cases cs with
    | nil => rfl
    | cons c cs =>
      have hrec := ih cs (fun d hd => h d (by simp [hd]))
      simp only [rangeDashGo]
      split
      · split
        · rename_i heq
          exfalso
          have : '-' ∈ cs := (List.dropWhile_sublist _).subset
            (heq ▸ List.mem_cons_self _ _)
          exact h '-' (by simp [this]) rfl
        · rw [hrec]
      · rw [hrec]

theorem longDashGo_id (f : ℕ) (cs : List Char) (h : ∀ c ∈ cs, c ≠ '-') :
    longDashGo f cs = cs := by
  induction f generalizing cs with
  | zero => rfl
  | succ f ih =>
    cases cs with
    | nil => rfl
    | cons c cs =>
      have hrec := ih cs (fun d hd => h d (by simp [hd]))
      simp only [longDashGo]
      split
      · split
        · rename_i heq
          exfalso
          have : '-' ∈ cs := (List.dropWhile_sublist _).subset
            (heq ▸ List.mem_cons_self _ _)
          exact h '-' (by simp [this]) rfl
        · rw [hrec]
      · rw [hrec]

theorem jsTrim_subset (cs : List Char) : ∀ c ∈ jsTrim cs, c ∈ cs := by
  intro c hc
  unfold jsTrim at hc
  rw [List.mem_reverse] at hc
  have hc2 := (List.dropWhile_sublist _).subset hc
  rw [List.mem_reverse] at hc2
  exact (List.dropWhile_sublist _).subset hc2

theorem jsTrim_ne_dash (cs : List Char) (h : ∀ c ∈ cs, c ≠ '-') :
    jsTrim cs ≠ ['-'] := by
  intro he
  have hm : '-' ∈ jsTrim cs := by rw [he]; simp
  exact h '-' (jsTrim_subset cs '-' hm) rfl

/-! ## Structure of the grouping loop `group3` -/

theorem group3Aux_append (xs ys : List Char) :
    ∀ k n, group3Aux k n (xs ++ ys) =
      group3Aux k n xs ++ group3Aux (k + xs.length) n ys := by
  induction xs with
  | nil =>
    intro k n
    simp [group3Aux]
  | cons x xs ih =>
    intro k n
    simp only [List.cons_append, group3Aux, List.length_cons, List.append_eq]
    rw [show k + (xs.length + 1) = k + 1 + xs.length from by omega]
    split
    · rw [ih (k + 1) n]
      simp
    · rw [ih (k + 1) n]
      simp

theorem group3Aux_noins (xs : List Char) :
    ∀ k n, (∀ t, t < xs.length → ¬(0 < k + t ∧ (n - (k + t)) % 3 = 0)) →
      group3Aux k n xs = xs := by
  induction xs with
  | nil =>
    intro k n _
    rfl
  | cons x xs ih =>
    intro k n h
    simp only [group3Aux]
    rw [if_neg ?_]
    · rw [ih (k + 1) n ?_]
      intro t ht hc
      refine h (t + 1) (by simp only [List.length_cons]; omega) ?_
      refine ⟨by omega, ?_⟩
      rw [show k + (t + 1) = k + 1 + t from by omega]
      exact hc.2
    · have h0 := h 0 (by simp)
      simpa using h0

theorem group3_short (ds : List Char) (h : ds.length ≤ 3) : group3 ds = ds := by
  unfold group3
  apply group3Aux_noins
  intro t ht
  rintro ⟨ht0, hmod⟩
  omega

theorem group3Aux_shift (ds : List Char) :
    ∀ k k' n n', 1 ≤ k → 1 ≤ k' → k + ds.length ≤ n → k' + ds.length ≤ n' →
      n - k = n' - k' → group3Aux k n ds = group3Aux k' n' ds := by
  induction ds with
  | nil =>
    intros
    rfl
  | cons x xs ih =>
    intro k k' n n' hk hk' hkn hkn' heq
    simp only [List.length_cons] at hkn hkn'
    simp only [group3Aux]
    have hcond : (0 < k ∧ (n - k) % 3 = 0) ↔ (0 < k' ∧ (n' - k') % 3 = 0) := by
      constructor
      · rintro ⟨-, hm⟩
        exact ⟨by omega, by omega⟩
      · rintro ⟨-, hm⟩
        exact ⟨by omega, by omega⟩
    by_cases hc : 0 < k ∧ (n - k) % 3 = 0
    · rw [if_pos hc, if_pos (hcond.mp hc),
        ih (k + 1) (k' + 1) n n' (by omega) (by omega) (by omega) (by omega) (by omega)]
    · rw [if_neg hc, if_neg (fun hc' => hc (hcond.mpr hc')),
        ih (k + 1) (k' + 1) n n' (by omega) (by omega) (by omega) (by omega) (by omega)]

theorem group3_split (ds : List Char) (h4 : 4 ≤ ds.length) :
    group3 ds = ds.take (if ds.length % 3 = 0 then 3 else ds.length % 3) ++
      NBSP :: group3 (ds.drop (if ds.length % 3 = 0 then 3 else ds.length % 3)) := by
  have hf : 1 ≤ (if ds.length % 3 = 0 then 3 else ds.length % 3) ∧
      (if ds.length % 3 = 0 then 3 else ds.length % 3) ≤ 3 ∧
      (if ds.length % 3 = 0 then 3 else ds.length % 3) % 3 = ds.length % 3 := by
    split <;> omega
  set f0 := if ds.length % 3 = 0 then 3 else ds.length % 3 with hf0
  have hfn : f0 < ds.length := by omega
  have hlen_take : (ds.take f0).length = f0 := by
    rw [List.length_take]
    omega
  have hlen_drop : (ds.drop f0).length = ds.length - f0 := List.length_drop ..
  have key : group3 ds = group3Aux 0 ds.length (ds.take f0 ++ ds.drop f0) := by
    rw [List.take_append_drop]
    rfl
  rw [key, group3Aux_append, hlen_take]
  have h1 : group3Aux 0 ds.length (ds.take f0) = ds.take f0 := by
    apply group3Aux_noins
    intro t ht
    rw [hlen_take] at ht
    rintro ⟨ht0, hmod⟩
    omega
  rw [h1]
  cases hdrop : ds.drop f0 with
  | nil =>
    rw [hdrop] at hlen_drop
    simp only [List.length_nil] at hlen_drop
    omega
  | cons d rest =>
    have hm : (ds.drop f0).length = rest.length + 1 := by
      rw [hdrop]
      simp
    rw [hlen_drop] at hm
    simp only [Nat.zero_add, group3Aux]
    rw [if_pos ⟨by omega, by omega⟩]
    have hrhs : group3 (d :: rest) =
        d :: group3Aux 1 (rest.length + 1) rest := by
      unfold group3
      simp only [List.length_cons, group3Aux]
      rw [if_neg (by simp)]
    rw [hrhs]
    rw [group3Aux_shift rest (f0 + 1) 1 ds.length (rest.length + 1)
      (by omega) (by omega) (by omega) (by omega) (by omega)]

/-! ## Helpers about chunk lists -/

theorem renderChunks_nil : renderChunks [] = [] := rfl

theorem renderChunks_cons (k : Chunk) (ks : List Chunk) :
    renderChunks (k :: ks) = k.render ++ renderChunks ks := by
  simp [renderChunks]

theorem mem_renderChunks {c : Char} {ks : List Chunk} (h : c ∈ renderChunks ks) :
    ∃ k ∈ ks, c ∈ k.render := by
  induction ks with
  | nil => simp [renderChunks] at h
  | cons k ks ih =>
    rw [renderChunks_cons, List.mem_append] at h
    rcases h with h | h
    · exact ⟨k, by simp, h⟩
    · obtain ⟨k', hk', hc⟩ := ih h
      exact ⟨k', by simp [hk'], hc⟩

theorem noRunRun_cons_sep (c : Char) (l : List Chunk) :
    noRunRun (Chunk.sep c :: l) = noRunRun l := by
  cases l with
  | nil => rfl
  | cons b t => simp [noRunRun, Chunk.isRun]

theorem noRunRun_cons (a : Chunk) (l : List Chunk) (h : noRunRun (a :: l) = true) :
    noRunRun l = true := by
  cases l with
  | nil => rfl
  | cons b t =>
    simp only [noRunRun, Bool.and_eq_true] at h
    exact h.2

theorem noRunRun_append_sh (l1 l2 : List Chunk) (h1 : noRunRun l1 = true)
    (h2 : noRunRun l2 = true)
    (hsh : l2 = [] ∨ ∃ c t, l2 = Chunk.sep c :: t) :
    noRunRun (l1 ++ l2) = true := by
  induction l1 with
  | nil => simpa using h2
  | cons a l1 ih =>
    cases l1 with
    | nil =>
      rcases hsh with rfl | ⟨c, t, rfl⟩
      · simpa using h1
      · simp only [List.singleton_append, noRunRun, Chunk.isRun, Bool.and_eq_true]
        refine ⟨by cases a <;> simp [Chunk.isRun], h2⟩
    | cons b t =>
      simp only [noRunRun, Bool.and_eq_true] at h1
      simp only [List.cons_append, noRunRun]
      rw [show (b :: t) ++ l2 = b :: (t ++ l2) from rfl] at *
      simp only [Bool.and_eq_true]
      exact ⟨h1.1, by simpa using ih h1.2⟩

/-! ## The thousands scanner computes `chunkOut` on chunk decompositions -/

theorem jsWordChar_of_digit {c : Char} (h : jsDigit c = true) : jsWordChar c = true := by
  simp [jsWordChar, h]

theorem takeWhile_digit_run (ds : List Char) (rest : List Char)
    (hds : ∀ c ∈ ds, jsDigit c = true)
    (hrest : ∀ d t, rest = d :: t → jsDigit d = false) :
    (ds ++ rest).takeWhile (jsDigit ·) = ds ∧
      (ds ++ rest).dropWhile (jsDigit ·) = rest := by
  induction ds with
  | nil =>
    cases rest with
    | nil => exact ⟨rfl, rfl⟩
    | cons d t =>
      have hd := hrest d t rfl
      constructor
      · simp [List.takeWhile_cons, hd]
      · simp [List.dropWhile_cons, hd]
  | cons c cs ih =>
    have hc := hds c (by simp)
    obtain ⟨ht, hd⟩ := ih (fun x hx => hds x (by simp [hx]))
    constructor
    · simp [List.takeWhile_cons, hc, ht]
    · simp [List.dropWhile_cons, hc, hd]

theorem thGo_walk (ds : List Char) :
    ∀ (f : ℕ) (rest : List Char), (∀ c ∈ ds, jsDigit c = true) →
      thGo f false (ds ++ rest) = ds ++ thGo (f - ds.length) false rest := by
  induction ds with
  | nil =>
    intro f rest _
    simp
  | cons d ds ih =>
    intro f rest h
    cases f with
    | zero =>
      simp [thGo]
    | succ f =>
      simp only [List.cons_append, thGo]
      rw [if_neg (by rintro ⟨h1, -⟩; exact absurd h1 (by simp))]
      have hw : (!jsWordChar d) = false := by
        rw [jsWordChar_of_digit (h d (by simp))]
        rfl
      rw [hw]
      rw [show ds.append rest = ds ++ rest from rfl]
      rw [ih f rest (fun c hc => h c (by simp [hc]))]
      simp only [List.length_cons]
      rw [show f + 1 - (ds.length + 1) = f - ds.length from by omega]

theorem chunksWF_cons {k : Chunk} {ks : List Chunk} (h : chunksWF (k :: ks)) :
    chunksWF ks ∧ chunkOkb k = true := by
  obtain ⟨h1, h2⟩ := h
  simp only [List.all_cons, Bool.and_eq_true] at h1
  exact ⟨⟨h1.2, noRunRun_cons k ks h2⟩, h1.1⟩

theorem run_shape {ds : List Char} (h : chunkOkb (Chunk.run ds) = true) :
    ds ≠ [] ∧ ∀ c ∈ ds, jsDigit c = true := by
  simp only [chunkOkb, Bool.and_eq_true, Bool.not_eq_true', List.all_eq_true] at h
  refine ⟨?_, h.2⟩
  intro hnil
  rw [hnil] at h
  simp at h

theorem after_run_facts {ds : List Char} {ks : List Chunk}
    (h : chunksWF (Chunk.run ds :: ks)) :
    (∀ d t, renderChunks ks = d :: t → jsDigit d = false) ∧
      nextBoundOk (renderChunks ks) = chunkNextOk ks := by
  cases ks with
  | nil => exact ⟨(by intro d t hdt; cases hdt), rfl⟩
  | cons k' ks' =>
    cases k' with
    | sep c =>
      have hok : chunkOkb (Chunk.sep c) = true := ((chunksWF_cons (chunksWF_cons h).1).2)
      have hcdig : jsDigit c = false := by
        simpa [chunkOkb] using hok
      constructor
      · intro d t hdt
        rw [renderChunks_cons] at hdt
        simp only [Chunk.render, List.singleton_append] at hdt
        rw [← (List.cons.injEq ..).mp hdt |>.1]
        exact hcdig
      · rw [renderChunks_cons]
        simp [Chunk.render, nextBoundOk, chunkNextOk]
    | run ds' =>
      exfalso
      have h2 := h.2
      simp [noRunRun, Chunk.isRun] at h2

theorem chunkOut_sep (pOk : Bool) (c : Char) (ks : List Chunk) :
    chunkOut pOk (Chunk.sep c :: ks) = c :: chunkOut (!jsWordChar c) ks := rfl

theorem chunkOut_run (pOk : Bool) (ds : List Char) (ks : List Chunk) :
    chunkOut pOk (Chunk.run ds :: ks) =
      (if pOk = true ∧ 4 ≤ ds.length ∧ chunkNextOk ks = true ∧ isYearRun ds = false then
        group3 ds
      else ds) ++ chunkOut false ks := rfl

theorem thGo_chunks : ∀ (ks : List Chunk) (f : ℕ) (pOk : Bool), chunksWF ks →
    (renderChunks ks).length < f →
    thGo f pOk (renderChunks ks) = chunkOut pOk ks := by
  intro ks
  induction ks with
  | nil =>
    intro f pOk _ _
    cases f <;> rfl
  | cons k ks ih =>
    intro f pOk hwf hf
    obtain ⟨hwf', hok⟩ := chunksWF_cons hwf
    cases k with
    | sep c =>
      have hcdig : jsDigit c = false := by simpa [chunkOkb] using hok
      rw [renderChunks_cons] at hf ⊢
      simp only [Chunk.render, List.singleton_append, List.length_cons] at hf ⊢
      cases f with
      | zero => omega
      | succ f =>
        simp only [thGo]
        rw [if_neg (by rintro ⟨-, hdig, -⟩; rw [hcdig] at hdig; cases hdig)]
        rw [ih f (!jsWordChar c) hwf' (by omega)]
        rw [chunkOut_sep]
    | run ds =>
      obtain ⟨hne, hdig⟩ := run_shape hok
      obtain ⟨d, ds', rfl⟩ := List.exists_cons_of_ne_nil hne
      obtain ⟨hafter1, hafter2⟩ := after_run_facts hwf
      rw [renderChunks_cons] at hf ⊢
      simp only [Chunk.render, List.cons_append, List.length_append,
        List.length_cons] at hf ⊢
      have hjd : jsDigit d = true := hdig d (by simp)
      obtain ⟨htake, hdrop⟩ := takeWhile_digit_run ds' (renderChunks ks)
        (fun c hc => hdig c (by simp [hc])) hafter1
      cases f with
      | zero => omega
      | succ f =>
        simp only [thGo]
        rw [htake, hdrop, hafter2]
        rw [chunkOut_run]
        by_cases hC : pOk = true ∧ 4 ≤ (d :: ds').length ∧ chunkNextOk ks = true ∧
            isYearRun (d :: ds') = false
        · rw [if_pos ⟨hC.1, hjd, hC.2.1, hC.2.2.1, hC.2.2.2⟩, if_pos hC]
          rw [ih f false hwf' (by omega)]
        · rw [if_neg (by rintro ⟨c1, -, c3, c4, c5⟩; exact hC ⟨c1, c3, c4, c5⟩),
            if_neg hC]
          have hwd : (!jsWordChar d) = false := by
            rw [jsWordChar_of_digit hjd]
            rfl
          rw [hwd]
          rw [thGo_walk ds' f (renderChunks ks) (fun c hc => hdig c (by simp [hc]))]
          rw [ih (f - ds'.length) false hwf' (by omega)]
          simp

theorem applyThousands_chunks (ks : List Chunk) (h : chunksWF ks) :
    applyThousands (renderChunks ks) = chunkOut true ks :=
  thGo_chunks ks _ true h (by omega)

/-! ## Decomposing a string into maximal runs -/

theorem dropWhile_head_not (p : Char → Bool) (l : List Char) :
    ∀ d t, l.dropWhile p = d :: t → p d = false := by
  induction l with
  | nil =>
    intro d t h
    cases h
  | cons c cs ih =>
    intro d t h
    rw [List.dropWhile_cons] at h
    by_cases hc : p c = true
    · rw [if_pos hc] at h
      exact ih d t h
    · rw [if_neg hc] at h
      have hcd := ((List.cons.injEq ..).mp h).1
      rw [← hcd]
      exact Bool.eq_false_iff.mpr hc

theorem toChunksGo_render : ∀ (f : ℕ) (cs : List Char), cs.length < f →
    renderChunks (toChunksGo f cs) = cs := by
  intro f
  induction f with
  | zero =>
    intro cs h
    omega
  | succ f ih =>
    intro cs h
    cases cs with
    | nil => rfl
    | cons c cs =>
      simp only [List.length_cons] at h
      simp only [toChunksGo]
      by_cases hc : jsDigit c = true
      · rw [if_pos hc, renderChunks_cons]
        simp only [Chunk.render]
        have hdl : (cs.dropWhile (jsDigit ·)).length ≤ cs.length :=
          (List.dropWhile_sublist _).length_le
        rw [ih (cs.dropWhile (jsDigit ·)) (by omega)]
        rw [List.cons_append, List.takeWhile_append_dropWhile]
      · rw [if_neg hc, renderChunks_cons]
        simp only [Chunk.render, List.singleton_append]
        rw [ih cs (by omega)]

theorem toChunksGo_head_run :
    ∀ (f : ℕ) (cs : List Char) (ds : List Char) (t : List Chunk),
      toChunksGo f cs = Chunk.run ds :: t →
      ∃ c cs', cs = c :: cs' ∧ jsDigit c = true := by
  intro f cs ds t h
  cases f with
  | zero => cases h
  | succ f =>
    cases cs with
    | nil => cases h
    | cons c cs =>
      simp only [toChunksGo] at h
      by_cases hc : jsDigit c = true
      · exact ⟨c, cs, rfl, hc⟩
      · rw [if_neg hc] at h
        cases h

theorem toChunksGo_wf : ∀ (f : ℕ) (cs : List Char), cs.length < f →
    chunksWF (toChunksGo f cs) ∧
      (∀ c, Chunk.sep c ∈ toChunksGo f cs → c ∈ cs) ∧
      (∀ ds, Chunk.run ds ∈ toChunksGo f cs → ∀ c ∈ ds, c ∈ cs) := by
  intro f
  induction f with
  | zero =>
    intro cs h
    omega
  | succ f ih =>
    intro cs h
    cases cs with
    | nil =>
      exact ⟨⟨rfl, rfl⟩, by simp [toChunksGo], by simp [toChunksGo]⟩
    | cons c cs =>
      simp only [List.length_cons] at h
      by_cases hc : jsDigit c = true
      · have hdl : (cs.dropWhile (jsDigit ·)).length ≤ cs.length :=
          (List.dropWhile_sublist _).length_le
        obtain ⟨⟨hall, hnrr⟩, hsep, hrun⟩ := ih (cs.dropWhile (jsDigit ·)) (by omega)
        have hstep : toChunksGo (f + 1) (c :: cs) =
            Chunk.run (c :: cs.takeWhile (jsDigit ·)) ::
              toChunksGo f (cs.dropWhile (jsDigit ·)) := by
          simp [toChunksGo, hc]
        rw [hstep]
        refine ⟨⟨?_, ?_⟩, ?_, ?_⟩
        · simp only [List.all_cons, Bool.and_eq_true]
          refine ⟨?_, hall⟩
          simp only [chunkOkb, Bool.and_eq_true, Bool.not_eq_true', List.all_eq_true]
          refine ⟨rfl, ?_⟩
          intro d hd
          rcases List.mem_cons.mp hd with rfl | hd
          · exact hc
          · exact List.mem_takeWhile_imp hd
        · cases htc : toChunksGo f (cs.dropWhile (jsDigit ·)) with
          | nil => rfl
          | cons k2 t2 =>
            have hk2 : k2.isRun = false := by
              cases k2 with
              | sep c2 => rfl
              | run ds2 =>
                obtain ⟨d2, cs2, hcd, hd2⟩ := toChunksGo_head_run f _ ds2 t2 htc
                have hfalse : jsDigit d2 = false :=
                  dropWhile_head_not (jsDigit ·) cs d2 cs2 hcd
                rw [hd2] at hfalse
                cases hfalse
            simp only [noRunRun]
            rw [hk2]
            simp only [Bool.and_false, Bool.not_false, Bool.true_and]
            rw [← htc]
            exact hnrr
        · intro c' hc'
          rcases List.mem_cons.mp hc' with heq | hc'
          · cases heq
          · have := hsep c' hc'
            have hsub := (List.dropWhile_sublist (jsDigit ·)).subset this
            exact List.mem_cons_of_mem _ hsub
        · intro ds hds d hd
          rcases List.mem_cons.mp hds with heq | hds
          · have hdseq : ds = c :: cs.takeWhile (jsDigit ·) := by
              injection heq
            rw [hdseq] at hd
            rcases List.mem_cons.mp hd with rfl | hd
            · exact List.mem_cons_self _ _
            · exact List.mem_cons_of_mem _
                ((List.takeWhile_sublist (jsDigit ·)).subset hd)
          · have := hrun ds hds d hd
            exact List.mem_cons_of_mem _ ((List.dropWhile_sublist (jsDigit ·)).subset this)
      · obtain ⟨⟨hall, hnrr⟩, hsep, hrun⟩ := ih cs (by omega)
        have hstep : toChunksGo (f + 1) (c :: cs) =
            Chunk.sep c :: toChunksGo f cs := by
          simp [toChunksGo, hc]
        rw [hstep]
        refine ⟨⟨?_, ?_⟩, ?_, ?_⟩
        · simp only [List.all_cons, Bool.and_eq_true]
          exact ⟨by simp [chunkOkb, hc], hall⟩
        · rw [noRunRun_cons_sep]
          exact hnrr
        · intro c' hc'
          rcases List.mem_cons.mp hc' with heq | hc'
          · injection heq with heq
            simp [heq]
          · exact List.mem_cons_of_mem _ (hsep c' hc')
        · intro ds hds d hd
          rcases List.mem_cons.mp hds with heq | hds
          · cases heq
          · exact List.mem_cons_of_mem _ (hrun ds hds d hd)

theorem stringChunks_spec (cs : List Char) :
    renderChunks (stringChunks cs) = cs ∧ chunksWF (stringChunks cs) ∧
      (∀ c, Chunk.sep c ∈ stringChunks cs → c ∈ cs) ∧
      (∀ ds, Chunk.run ds ∈ stringChunks cs → ∀ c ∈ ds, c ∈ cs) := by
  obtain ⟨h1, h2, h3⟩ := toChunksGo_wf (cs.length + 1) cs (by omega)
  exact ⟨toChunksGo_render (cs.length + 1) cs (by omega), h1, h2, h3⟩

theorem chunksWF_mem_okb {ks : List Chunk} (h : chunksWF ks) {k : Chunk}
    (hk : k ∈ ks) : chunkOkb k = true := by
  have := h.1
  rw [List.all_eq_true] at this
  exact this k hk

/-! ## Second application of the grouping pass is the identity -/

theorem chunkOut_id (ks : List Chunk)
    (h : ∀ ds, Chunk.run ds ∈ ks → ds.length ≤ 3 ∨ isYearRun ds = true) :
    ∀ pOk, chunkOut pOk ks = renderChunks ks := by
  induction ks with
  | nil =>
    intro pOk
    rfl
  | cons k ks ih =>
    intro pOk
    cases k with
    | sep c =>
      rw [chunkOut_sep, renderChunks_cons]
      simp only [Chunk.render, List.singleton_append]
      rw [ih (fun ds hds => h ds (by simp [hds])) (!jsWordChar c)]
    | run ds =>
      rw [chunkOut_run, renderChunks_cons]
      simp only [Chunk.render]
      rw [if_neg ?_]
      · rw [ih (fun ds' hds' => h ds' (by simp [hds'])) false]
      · rintro ⟨-, h4, -, hyear⟩
        rcases h ds (by simp) with hlen | hy
        · omega
        · rw [hy] at hyear
          cases hyear

theorem renderChunks_append (l1 l2 : List Chunk) :
    renderChunks (l1 ++ l2) = renderChunks l1 ++ renderChunks l2 := by
  simp [renderChunks]

theorem group3_cons_ne_nil (c : Char) (cs : List Char) : group3 (c :: cs) ≠ [] := by
  unfold group3
  simp only [group3Aux]
  rw [if_neg (by simp)]
  simp

theorem group3_chunks : ∀ (n : ℕ) (ds : List Char), ds.length ≤ n → ds ≠ [] →
    (∀ c ∈ ds, jsDigit c = true) →
    ∃ gs, group3 ds = renderChunks gs ∧ chunksWF gs ∧
      (∀ ds', Chunk.run ds' ∈ gs →
        ds' ≠ [] ∧ (∀ c ∈ ds', jsDigit c = true) ∧ ds'.length ≤ 3) ∧
      (∀ c, Chunk.sep c ∈ gs → c = NBSP) := by
  intro n
  induction n with
  | zero =>
    intro ds h hne _
    cases ds with
    | nil => exact absurd rfl hne
    | cons c cs => simp at h
  | succ n ih =>
    intro ds hlen hne hdig
    by_cases h3 : ds.length ≤ 3
    · refine ⟨[Chunk.run ds], ?_, ⟨?_, rfl⟩, ?_, ?_⟩
      · rw [group3_short ds h3, renderChunks_cons, renderChunks_nil]
        simp [Chunk.render]
      · simp only [List.all_cons, List.all_nil, Bool.and_true, chunkOkb,
          Bool.and_eq_true, Bool.not_eq_true', List.all_eq_true]
        refine ⟨?_, hdig⟩
        cases ds with
        | nil => exact absurd rfl hne
        | cons c cs => rfl
      · intro ds' hds'
        rcases List.mem_cons.mp hds' with heq | hds'
        · injection heq with heq
          rw [heq]
          exact ⟨hne, hdig, h3⟩
        · simp at hds'
      · intro c hc
        rcases List.mem_cons.mp hc with heq | hc
        · cases heq
        · simp at hc
    · have h4 : 4 ≤ ds.length := by omega
      have hfb : 1 ≤ (if ds.length % 3 = 0 then 3 else ds.length % 3) ∧
          (if ds.length % 3 = 0 then 3 else ds.length % 3) ≤ 3 := by
        split <;> omega
      set f0 := if ds.length % 3 = 0 then 3 else ds.length % 3 with hf0
      have hsp := group3_split ds h4
      rw [← hf0] at hsp
      have hdlen : (ds.drop f0).length = ds.length - f0 := List.length_drop ..
      have hdropne : ds.drop f0 ≠ [] := by
        intro hnil
        rw [hnil] at hdlen
        simp only [List.length_nil] at hdlen
        omega
      obtain ⟨gs', hg1, hg2, hg3, hg4⟩ := ih (ds.drop f0) (by omega) hdropne
        (fun c hc => hdig c ((List.drop_sublist ..).subset hc))
      refine ⟨Chunk.run (ds.take f0) :: Chunk.sep NBSP :: gs', ?_, ⟨?_, ?_⟩, ?_, ?_⟩
      · rw [hsp, renderChunks_cons, renderChunks_cons, hg1]
        simp [Chunk.render]
      · simp only [List.all_cons, Bool.and_eq_true]
        refine ⟨?_, ?_, hg2.1⟩
        · simp only [chunkOkb, Bool.and_eq_true, Bool.not_eq_true', List.all_eq_true]
          constructor
          · cases htk : ds.take f0 with
            | nil =>
              have : (ds.take f0).length = f0 := by
                rw [List.length_take]
                omega
              rw [htk] at this
              simp only [List.length_nil] at this
              omega
            | cons c cs => rfl
          · intro d hd
            exact hdig d ((List.take_sublist ..).subset hd)
        · decide
      · have : noRunRun (Chunk.sep NBSP :: gs') = true := by
          rw [noRunRun_cons_sep]
          exact hg2.2
        cases gs' with
        | nil => rfl
        | cons g t =>
          simp only [noRunRun, Chunk.isRun, Bool.and_eq_true] at this ⊢
          exact ⟨rfl, this⟩
      · intro ds' hds'
        rcases List.mem_cons.mp hds' with heq | hds'
        · injection heq with heq
          rw [heq]
          refine ⟨?_, fun c hc => hdig c ((List.take_sublist ..).subset hc), ?_⟩
          · intro hnil
            have : (ds.take f0).length = f0 := by
              rw [List.length_take]
              omega
            rw [hnil] at this
            simp only [List.length_nil] at this
            omega
          · rw [List.length_take]
            omega
        · rcases List.mem_cons.mp hds' with heq | hds'
          · cases heq
          · exact hg3 ds' hds'
      · intro c hc
        rcases List.mem_cons.mp hc with heq | hc
        · cases heq
        · rcases List.mem_cons.mp hc with heq | hc
          · injection heq
          · exact hg4 c hc

theorem chunkOut_rechunk : ∀ (ks : List Chunk) (pOk : Bool), chunksWF ks →
    (pOk = true ∨ (ks = [] ∨ ∃ c t, ks = Chunk.sep c :: t)) →
    (∀ c, Chunk.sep c ∈ ks → jsWordChar c = false) →
    ∃ ks2, chunkOut pOk ks = renderChunks ks2 ∧ chunksWF ks2 ∧
      (∀ ds, Chunk.run ds ∈ ks2 → ds.length ≤ 3 ∨ isYearRun ds = true) ∧
      (∀ ds, Chunk.run ds ∈ ks2 → ds ≠ [] ∧ ∀ c ∈ ds, jsDigit c = true) ∧
      (∀ c, Chunk.sep c ∈ ks2 → Chunk.sep c ∈ ks ∨ c = NBSP) ∧
      ((ks = [] ∨ ∃ c t, ks = Chunk.sep c :: t) →
        (ks2 = [] ∨ ∃ c t, ks2 = Chunk.sep c :: t)) := by
  intro ks
  induction ks with
  | nil =>
    intro pOk _ _ _
    exact ⟨[], rfl, ⟨rfl, rfl⟩, by simp, by simp, by simp, fun _ => Or.inl rfl⟩
  | cons k ks ih =>
    intro pOk hwf hpo hsep
    obtain ⟨hwf', hok⟩ := chunksWF_cons hwf
    cases k with
    | sep c =>
      have hcw : jsWordChar c = false := hsep c (by simp)
      obtain ⟨ks2, h1, h2, h3, h4, h5, h6⟩ := ih (!jsWordChar c) hwf'
        (Or.inl (by rw [hcw]; rfl)) (fun c' hc' => hsep c' (by simp [hc']))
      refine ⟨Chunk.sep c :: ks2, ?_, ⟨?_, ?_⟩, ?_, ?_, ?_, ?_⟩
      · rw [chunkOut_sep, renderChunks_cons, h1]
        simp [Chunk.render]
      · simp only [List.all_cons, Bool.and_eq_true]
        exact ⟨hok, h2.1⟩
      · rw [noRunRun_cons_sep]
        exact h2.2
      · intro ds hds
        rcases List.mem_cons.mp hds with heq | hds
        · cases heq
        · exact h3 ds hds
      · intro ds hds
        rcases List.mem_cons.mp hds with heq | hds
        · cases heq
        · exact h4 ds hds
      · intro c' hc'
        rcases List.mem_cons.mp hc' with heq | hc'
        · injection heq with heq
          rw [heq]
          left
          simp
        · rcases h5 c' hc' with hm | hnb
          · left
            exact List.mem_cons_of_mem _ hm
          · right
            exact hnb
      · intro _
        right
        exact ⟨c, ks2, rfl⟩
    | run ds =>
      have hpok : pOk = true := by
        rcases hpo with h | h
        · exact h
        · rcases h with h | ⟨c, t, h⟩
          · cases h
          · cases h
      obtain ⟨hne, hdig⟩ := run_shape hok
      have htail : ks = [] ∨ ∃ c t, ks = Chunk.sep c :: t := by
        cases ks with
        | nil => exact Or.inl rfl
        | cons k' t =>
          cases k' with
          | sep c => exact Or.inr ⟨c, t, rfl⟩
          | run ds' =>
            exfalso
            have h2 := hwf.2
            simp [noRunRun, Chunk.isRun] at h2
      obtain ⟨ks2, h1, h2, h3, h4, h5, h6⟩ := ih false hwf' (Or.inr htail)
        (fun c' hc' => hsep c' (by simp [hc']))
      have hks2sh := h6 htail
      have hnOk : chunkNextOk ks = true := by
        rcases htail with rfl | ⟨c, t, rfl⟩
        · rfl
        · have : chunkNextOk (Chunk.sep c :: t) = !jsWordChar c := rfl
          rw [this, hsep c (by simp)]
          rfl
      by_cases hC : 4 ≤ ds.length ∧ isYearRun ds = false
      · rw [chunkOut_run, if_pos ⟨hpok, hC.1, hnOk, hC.2⟩]
        obtain ⟨gs, hg1, hg2, hg3, hg4⟩ := group3_chunks ds.length ds le_rfl hne hdig
        refine ⟨gs ++ ks2, ?_, ⟨?_, ?_⟩, ?_, ?_, ?_, ?_⟩
        · rw [hg1, h1, renderChunks_append]
        · rw [List.all_append, Bool.and_eq_true]
          exact ⟨hg2.1, h2.1⟩
        · exact noRunRun_append_sh gs ks2 hg2.2 h2.2 hks2sh
        · intro ds' hds'
          rcases List.mem_append.mp hds' with hm | hm
          · exact Or.inl (hg3 ds' hm).2.2
          · exact h3 ds' hm
        · intro ds' hds'
          rcases List.mem_append.mp hds' with hm | hm
          · exact ⟨(hg3 ds' hm).1, (hg3 ds' hm).2.1⟩
          · exact h4 ds' hm
        · intro c' hc'
          rcases List.mem_append.mp hc' with hm | hm
          · exact Or.inr (hg4 c' hm)
          · rcases h5 c' hm with hm2 | hnb
            · exact Or.inl (List.mem_cons_of_mem _ hm2)
            · exact Or.inr hnb
        · intro hfalse
          rcases hfalse with h | ⟨c, t, h⟩
          · cases h
          · cases h
      · rw [chunkOut_run, if_neg (by rintro ⟨-, hc4, -, hcy⟩; exact hC ⟨hc4, hcy⟩)]
        refine ⟨Chunk.run ds :: ks2, ?_, ⟨?_, ?_⟩, ?_, ?_, ?_, ?_⟩
        · rw [renderChunks_cons, h1]
          simp [Chunk.render]
        · simp only [List.all_cons, Bool.and_eq_true]
          exact ⟨hok, h2.1⟩
        · rw [show (Chunk.run ds :: ks2 : List Chunk) = [Chunk.run ds] ++ ks2 from rfl]
          exact noRunRun_append_sh [Chunk.run ds] ks2 rfl h2.2 hks2sh
        · intro ds' hds'
          rcases List.mem_cons.mp hds' with heq | hds'
          · injection heq with heq
            rw [heq]
            by_cases hy : isYearRun ds = true
            · exact Or.inr hy
            · left
              have h4' : ¬(4 ≤ ds.length) := by
                intro hge
                exact hC ⟨hge, Bool.eq_false_iff.mpr hy⟩
              omega
          · exact h3 ds' hds'
        · intro ds' hds'
          rcases List.mem_cons.mp hds' with heq | hds'
          · injection heq with heq
            rw [heq]
            exact ⟨hne, hdig⟩
          · exact h4 ds' hds'
        · intro c' hc'
          rcases List.mem_cons.mp hc' with heq | hc'
          · cases heq
          · rcases h5 c' hc' with hm | hnb
            · exact Or.inl (List.mem_cons_of_mem _ hm)
            · exact Or.inr hnb
        · intro hfalse
          rcases hfalse with h | ⟨c, t, h⟩
          · cases h
          · cases h

/-! ## On digit/space material the pipeline reduces to the thousands pass -/

theorem runPasses_A1 (cs : List Char)
    (h : ∀ c ∈ cs, c = ' ' ∨ c = NBSP ∨ jsDigit c = true) :
    runPasses cs = applyThousands cs := by
  have hf := fun c hc => A1_char_facts (h c hc)
  simp only [runPasses]
  rw [m2Go_id _ cs (fun c hc => (hf c hc).1)]
  rw [m3Go_id _ cs (fun c hc => (hf c hc).1)]
  rw [quoteOpenGo_id none cs (fun c hc => (hf c hc).2.1)]
  rw [quoteCloseGo_id cs (fun c hc => (hf c hc).2.1)]
  rw [prepPass_id cs (fun c hc => (hf c hc).2.2.1),
    prepPass_id cs (fun c hc => (hf c hc).2.2.1),
    prepPass_id cs (fun c hc => (hf c hc).2.2.1)]
  rw [leadPass_id cs (fun c hc => (hf c hc).2.2.1)]
  rw [commaGo_id_noComma _ cs (fun c hc => (hf c hc).2.2.2.1)]
  rw [trailGo_id _ cs (fun c hc => (hf c hc).2.2.1)]
  rw [numSignGo_id _ cs (fun c hc => (hf c hc).2.2.2.2.1)]
  rw [parenBindGo_id _ cs (fun c hc => (hf c hc).2.2.2.2.2.1)]
  rw [parenWrapGo_id _ cs (fun c hc => (hf c hc).2.2.2.2.2.1)]
  rw [parenOpenWsGo_id _ cs (fun c hc => (hf c hc).2.2.2.2.2.1)]
  rw [wsCloseGo_id _ cs (fun c hc => (hf c hc).2.2.2.2.2.2.1)]
  rw [rangeDashGo_id _ cs (fun c hc => (hf c hc).2.2.2.2.2.2.2)]
  rw [longDashGo_id _ cs (fun c hc => (hf c hc).2.2.2.2.2.2.2)]

theorem runPasses_A7 (cs : List Char)
    (h : ∀ c ∈ cs, c = ',' ∨ jsDigit c = true) :
    runPasses cs = applyThousands cs := by
  have hf := fun c hc => A7_char_facts (h c hc)
  simp only [runPasses]
  rw [m2Go_id _ cs (fun c hc => (hf c hc).1)]
  rw [m3Go_id _ cs (fun c hc => (hf c hc).1)]
  rw [quoteOpenGo_id none cs (fun c hc => (hf c hc).2.1)]
  rw [quoteCloseGo_id cs (fun c hc => (hf c hc).2.1)]
  rw [prepPass_id cs (fun c hc => (hf c hc).2.2.1),
    prepPass_id cs (fun c hc => (hf c hc).2.2.1),
    prepPass_id cs (fun c hc => (hf c hc).2.2.1)]
  rw [leadPass_id cs (fun c hc => (hf c hc).2.2.1)]
  rw [commaGo_id_noWs _ cs (fun c hc => (hf c hc).2.2.2.1)]
  rw [trailGo_id _ cs (fun c hc => (hf c hc).2.2.1)]
  rw [numSignGo_id _ cs (fun c hc => (hf c hc).2.2.2.2.1)]
  rw [parenBindGo_id _ cs (fun c hc => (hf c hc).2.2.2.2.2.1)]
  rw [parenWrapGo_id _ cs (fun c hc => (hf c hc).2.2.2.2.2.1)]
  rw [parenOpenWsGo_id _ cs (fun c hc => (hf c hc).2.2.2.2.2.1)]
  rw [wsCloseGo_id _ cs (fun c hc => (hf c hc).2.2.2.2.2.2.1)]
  rw [rangeDashGo_id _ cs (fun c hc => (hf c hc).2.2.2.2.2.2.2)]
  rw [longDashGo_id _ cs (fun c hc => (hf c hc).2.2.2.2.2.2.2)]

theorem string_mk_data (l : List Char) : (⟨l⟩ : String).data = l := rfl

theorem formatRussianText_runPasses (s : String) (hne : s.data ≠ [])
    (hdash : jsTrim s.data ≠ ['-']) :
    formatRussianText s = ⟨runPasses s.data⟩ := by
  unfold formatRussianText
  rw [if_neg hne, if_neg hdash]

theorem thGo_ne_nil (f : ℕ) (pOk : Bool) (cs : List Char) (h : cs ≠ []) :
    thGo f pOk cs ≠ [] := by
  cases f with
  | zero => exact h
  | succ f =>
    cases cs with
    | nil => exact absurd rfl h
    | cons c cs =>
      simp only [thGo]
      split
      · intro hnil
        rcases List.append_eq_nil.mp hnil with ⟨hg, -⟩
        exact group3_cons_ne_nil c _ hg
      · simp

/-- The thousands pass maps digit/space/NBSP material to digit/space/NBSP
material and is idempotent on it. -/
theorem applyThousands_A1 (cs : List Char)
    (h : ∀ c ∈ cs, c = ' ' ∨ c = NBSP ∨ jsDigit c = true) :
    (∀ c ∈ applyThousands cs, c = ' ' ∨ c = NBSP ∨ jsDigit c = true) ∧
      applyThousands (applyThousands cs) = applyThousands cs := by
  obtain ⟨hrender, hwf, hseps, hruns⟩ := stringChunks_spec cs
  have h1 : applyThousands cs = chunkOut true (stringChunks cs) := by
    conv_lhs => rw [← hrender]
    exact applyThousands_chunks _ hwf
  have hsepw : ∀ c, Chunk.sep c ∈ stringChunks cs → jsWordChar c = false := by
    intro c hc
    have hcs := hseps c hc
    rcases h c hcs with rfl | rfl | hd
    · decide
    · decide
    · exfalso
      have hok := chunksWF_mem_okb hwf hc
      simp only [chunkOkb, Bool.not_eq_true'] at hok
      rw [hd] at hok
      cases hok
  obtain ⟨ks2, k1, k2, k3, k4, k5, -⟩ :=
    chunkOut_rechunk (stringChunks cs) true hwf (Or.inl rfl) hsepw
  have halpha2 : ∀ c ∈ applyThousands cs, c = ' ' ∨ c = NBSP ∨ jsDigit c = true := by
    intro c hc
    rw [h1, k1] at hc
    obtain ⟨k, hk, hck⟩ := mem_renderChunks hc
    cases k with
    | sep c' =>
      simp only [Chunk.render, List.mem_singleton] at hck
      subst hck
      rcases k5 c hk with hm | hnb
      · exact h c (hseps c hm)
      · exact Or.inr (Or.inl hnb)
    | run ds => exact Or.inr (Or.inr ((k4 ds hk).2 c hck))
  refine ⟨halpha2, ?_⟩
  rw [h1, k1]
  rw [applyThousands_chunks ks2 k2]
  exact chunkOut_id ks2 k3 true

/-! ## Claims about the normalizer -/

/-- C1 (counterexample): the normalizer is not idempotent.  A parenthetical
is wrapped in word joiners by every application, so running
`formatRussianText` twice on `(1)` adds a second layer of U+2060
characters. -/
theorem c1_counterexample_parens :
    formatRussianText (formatRussianText "(1)") ≠ formatRussianText "(1)" := by
  decide

/-- C1 (amended): on strings of digits and spaces — material the
parenthetical, quote, dash, abbreviation and preposition rules never
touch — `formatRussianText` is idempotent: the first application reduces
to the thousands-grouping pass, whose output (digit groups of at most
three separated by NBSP, and untouched year runs) is a fixed point. -/
theorem c1_amended_idempotent_digits_spaces (s : String)
    (h : ∀ c ∈ s.data, c = ' ' ∨ jsDigit c = true) :
    formatRussianText (formatRussianText s) = formatRussianText s := by
  by_cases hnil : s.data = []
  · have hs : formatRussianText s = s := by
      unfold formatRussianText
      rw [if_pos hnil]
    rw [hs, hs]
  · have hA1 : ∀ c ∈ s.data, c = ' ' ∨ c = NBSP ∨ jsDigit c = true := by
      intro c hc
      rcases h c hc with h' | h'
      · exact Or.inl h'
      · exact Or.inr (Or.inr h')
    have hdash : jsTrim s.data ≠ ['-'] :=
      jsTrim_ne_dash _ (fun c hc => (A1_char_facts (hA1 c hc)).2.2.2.2.2.2.2)
    have h1 : formatRussianText s = ⟨applyThousands s.data⟩ := by
      rw [formatRussianText_runPasses s hnil hdash, runPasses_A1 _ hA1]
    obtain ⟨himg, hidem⟩ := applyThousands_A1 s.data hA1
    have hne2 : applyThousands s.data ≠ [] := by
      unfold applyThousands
      exact thGo_ne_nil _ true _ hnil
    have hdash2 : jsTrim (applyThousands s.data) ≠ ['-'] :=
      jsTrim_ne_dash _ (fun c hc => (A1_char_facts (himg c hc)).2.2.2.2.2.2.2)
    have h2 : formatRussianText ⟨applyThousands s.data⟩ =
        ⟨applyThousands (applyThousands s.data)⟩ := by
      rw [formatRussianText_runPasses _ (by rw [string_mk_data]; exact hne2)
        (by rw [string_mk_data]; exact hdash2)]
      rw [string_mk_data]
      rw [runPasses_A1 _ (by rw [string_mk_data]; exact himg)]
    rw [h1, h2, hidem, ← h1]

/-- Witness for the amended C1 at the concrete input `12345`. -/
theorem c1_amended_idempotent_digits_spaces_witness :
    formatRussianText (formatRussianText "12345") = formatRussianText "12345" :=
  c1_amended_idempotent_digits_spaces "12345" (by decide)

/-- C4: line breaks are not preserved.  The preposition rule replaces the
`\s+` after a bound word — a run that can consist of the newline itself —
with a non-breaking space: `и\nx` becomes `и x` and the output contains
no newline, contradicting the function's own doc comment ("while
preserving line breaks"). -/
theorem c4_newline_destroyed :
    formatRussianText "и\nx" = "и x" ∧
      '\n' ∉ (formatRussianText "и\nx").data := by
  exact ⟨by decide, by decide⟩

/-- C3 (counterexample): a maximal digit run adjacent to an ASCII word
character is not grouped: the `\b` of `\b\d{4,}\b` fails, so
`formatRussianText "a12345"` keeps `a12345` intact instead of producing
`a12 345`. -/
theorem c3_counterexample_word_boundary :
    formatRussianText "a12345" = "a12345" ∧
      formatRussianText "a12345" ≠ "a12 345" := by
  exact ⟨by decide, by decide⟩

/-- C3 (amended): the thousands pass groups exactly the maximal digit runs
enclosed in word boundaries: on any maximal-run decomposition (`chunksWF`)
it produces `chunkOut`, which groups a run in triples from the right with
NBSP iff no ASCII word character is adjacent on either side, the run has
at least 4 digits, and it is not a 4-digit run starting with 19 or 20; in
particular `normalize "12345" = "12 345"` and the `2024` of
`в 2024 году` stays ungrouped. -/
theorem c3_amended_boundary_grouping :
    (∀ ks, chunksWF ks → applyThousands (renderChunks ks) = chunkOut true ks) ∧
    formatRussianText "12345" = "12 345" ∧
    formatRussianText "в 2024 году" = "в 2024 году" :=
  ⟨fun ks h => applyThousands_chunks ks h, by decide, by decide⟩

/-- Witness for the amended C3 on the decomposition of `a12345`. -/
theorem c3_amended_boundary_grouping_witness :
    applyThousands (renderChunks [Chunk.sep 'a', Chunk.run ['1', '2', '3', '4', '5']]) =
      chunkOut true [Chunk.sep 'a', Chunk.run ['1', '2', '3', '4', '5']] :=
  c3_amended_boundary_grouping.1 [Chunk.sep 'a', Chunk.run ['1', '2', '3', '4', '5']]
    ⟨by decide, by decide⟩

/-- C7 (counterexample): the grouping pass does enter decimal fractions:
in `1234,5678` the fractional run `5678` is delimited by word boundaries
(the comma is not a word character), so it is grouped to `5 678`. -/
theorem c7_counterexample_fraction_grouped :
    formatRussianText "1234,5678" = "1 234,5 678" ∧
      formatRussianText "1234,5678" ≠ "1 234,5678" := by
  exact ⟨by decide, by decide⟩

/-- C7 (amended): grouping treats the integer and fractional digits of a
comma decimal as independent runs; a fraction of at most 3 digits is never
touched, while the integer part is grouped under the usual conditions. -/
theorem c7_amended_short_fraction_untouched (a b : List Char) (ha : a ≠ [])
    (hb : b ≠ []) (hda : ∀ c ∈ a, jsDigit c = true)
    (hdb : ∀ c ∈ b, jsDigit c = true) (hlen : b.length ≤ 3) :
    formatRussianText ⟨a ++ ',' :: b⟩ =
      ⟨(if 4 ≤ a.length ∧ isYearRun a = false then group3 a else a) ++ ',' :: b⟩ := by
  have halpha : ∀ c ∈ a ++ ',' :: b, c = ',' ∨ jsDigit c = true := by
    intro c hc
    rcases List.mem_append.mp hc with hm | hm
    · exact Or.inr (hda c hm)
    · rcases List.mem_cons.mp hm with rfl | hm
      · exact Or.inl rfl
      · exact Or.inr (hdb c hm)
  have hne : a ++ ',' :: b ≠ [] := by
    intro hx
    have := congrArg List.length hx
    simp at this
  have hdash : jsTrim (a ++ ',' :: b) ≠ ['-'] :=
    jsTrim_ne_dash _ (fun c hc => (A7_char_facts (halpha c hc)).2.2.2.2.2.2.2)
  rw [formatRussianText_runPasses _ (by rw [string_mk_data]; exact hne)
      (by rw [string_mk_data]; exact hdash)]
  rw [string_mk_data, runPasses_A7 _ halpha]
  congr 1
  have hwf : chunksWF [Chunk.run a, Chunk.sep ',', Chunk.run b] := by
    constructor
    · simp only [List.all_cons, List.all_nil, Bool.and_true, Bool.and_eq_true]
      refine ⟨?_, ?_, ?_⟩
      · simp only [chunkOkb, Bool.and_eq_true, Bool.not_eq_true', List.all_eq_true]
        refine ⟨?_, hda⟩
        cases a with
        | nil => exact absurd rfl ha
        | cons x xs => rfl
      · decide
      · simp only [chunkOkb, Bool.and_eq_true, Bool.not_eq_true', List.all_eq_true]
        refine ⟨?_, hdb⟩
        cases b with
        | nil => exact absurd rfl hb
        | cons x xs => rfl
    · rfl
  have hrender : renderChunks [Chunk.run a, Chunk.sep ',', Chunk.run b] =
      a ++ ',' :: b := by
    simp [renderChunks, Chunk.render]
  rw [← hrender, applyThousands_chunks _ hwf]
  rw [chunkOut_run, chunkOut_sep, chunkOut_run]
  have hnext : chunkNextOk [Chunk.sep ',', Chunk.run b] = true := by
    rw [show chunkNextOk [Chunk.sep ',', Chunk.run b] = !jsWordChar ',' from rfl]
    decide
  rw [if_neg (show ¬((!jsWordChar ',') = true ∧ 4 ≤ b.length ∧
      chunkNextOk ([] : List Chunk) = true ∧ isYearRun b = false) from by
    rintro ⟨-, h4, -⟩
    omega)]
  by_cases hCa : 4 ≤ a.length ∧ isYearRun a = false
  · rw [if_pos ⟨rfl, hCa.1, hnext, hCa.2⟩, if_pos hCa]
    simp [chunkOut]
  · rw [if_neg (by rintro ⟨-, h4', -, hy'⟩; exact hCa ⟨h4', hy'⟩), if_neg hCa]
    simp [chunkOut]

/-- Witness for the amended C7 at `1234,5`. -/
theorem c7_amended_short_fraction_untouched_witness :
    formatRussianText ⟨['1', '2', '3', '4'] ++ ',' :: ['5']⟩ =
      ⟨(if 4 ≤ (['1', '2', '3', '4'] : List Char).length ∧
          isYearRun ['1', '2', '3', '4'] = false then
        group3 ['1', '2', '3', '4']
      else ['1', '2', '3', '4']) ++ ',' :: ['5']⟩ :=
  c7_amended_short_fraction_untouched ['1', '2', '3', '4'] ['5'] (by decide)
    (by decide) (by decide) (by decide) (by decide)

end Tablitsa
